import Mathlib

/-!
Verification of the FlexConveyor core (`src/flexconveyor_system.py`) against its
natural-language specification.

The Python class `FlexConveyorSystem` keeps three pieces of mutable state: the
adjacency matrix (a dict from module IRI to a four-slot connection list, built
once at initialization), the parcel map (dict from parcel IRI to its current
position and destination), and a parcel counter.  All persistent facts live in
an external triple store (`graph_db_interface.GraphDB`), which this development
models as a list of (subject, predicate, object) string triples; the store
client operations (`triples_get`, `triples_add`, `triples_delete`,
`triples_update`) are modelled from the specification's store-client contract
(spec section 6), since the client library is an external collaborator whose
code is not part of this repository.

Store calls can fail for exogenous reasons (connectivity); where a claim is
about such failures, the failure is modelled by an explicit oracle parameter
`failSet`: the deletion of a parcel in `failSet` raises, exactly like a
connectivity error of the underlying delete call would.
-/

namespace FlexConveyor

abbrev IRI := String

/-- A stored fact: (subject, predicate, object). -/
abbrev Triple := IRI × IRI × IRI

/-- Predicate IRI for "module has possession of parcel" (source constant). -/
def possPred : IRI := "https://www.sfb1574.kit.edu/ontologies/FlexConveyor#hasPossession"

/-- Predicate IRI for "parcel is possessed by module" (source constant). -/
def isPossPred : IRI := "https://www.sfb1574.kit.edu/ontologies/FlexConveyor#isPossessedBy"

/-- Predicate IRI for "parcel has destination" (source constant). -/
def destPred : IRI := "https://www.sfb1574.kit.edu/ontologies/FlexConveyor#hasDestination"

/-- RDF type predicate (source constant). -/
def typePred : IRI := "http://www.w3.org/1999/02/22-rdf-syntax-ns#type"

/-- Class IRI for parcels (source constant). -/
def parcelClass : IRI := "https://www.sfb1574.kit.edu/ontologies/FlexConveyor#Parcel"

/-- OWL named-individual class IRI (source constant). -/
def namedIndividual : IRI := "http://www.w3.org/2002/07/owl#NamedIndividual"

/-- Does the optional bound value accept the concrete value?  An unbound
position in a `triples_get` pattern matches anything. -/
def matchesOpt (x : Option IRI) (v : IRI) : Bool :=
  match x with
  | none => true
  | some y => y = v

/-- Modelled from the spec: store-client `factsGet` (spec section 6; the Python
code calls it `triples_get`).  Returns every stored triple whose components
match the bound pattern positions; the empty list when none match. -/
def triples_get (db : List Triple) (sub pred obj : Option IRI) : List Triple :=
  db.filter fun t => matchesOpt sub t.1 && matchesOpt pred t.2.1 && matchesOpt obj t.2.2

/-- Modelled from the spec: store-client `factsAdd` (spec section 6):
inserts a batch of facts. -/
def triples_add (db : List Triple) (ts : List Triple) : List Triple :=
  db ++ ts

/-- Modelled from the spec: store-client `factsDelete` (spec section 6):
deletes a batch of facts. -/
def triples_delete (db : List Triple) (ts : List Triple) : List Triple :=
  db.filter fun t => decide (t ∉ ts)

/-- Modelled from the spec: store-client `factsUpdate` (spec section 6):
atomically replaces `old` by `new`; with `check` set, fails (returning `none`)
and leaves the store unchanged when any member of `old` is absent. -/
def triples_update (db old new : List Triple) (check : Bool) : Option (List Triple) :=
  if check && !(old.all fun t => decide (t ∈ db)) then none
  else some (triples_delete db old ++ new)

/-- One entry of the in-memory parcel map: the parcel's current position and
its (optional) destination, mirroring the Python dict
`{"current_position": ..., "destination": ...}`. -/
structure ParcelInfo where
  current_position : IRI
  destination : Option IRI
deriving DecidableEq

/-- The in-memory parcel map `self.parcels`: an insertion-ordered dict from
parcel IRI to its info, modelled as an association list. -/
abbrev ParcelMap := List (IRI × ParcelInfo)

/-- Python-dict assignment `m[k] = v`: overwrite in place when the key exists,
append otherwise (dicts preserve insertion order). -/
def dictInsert (m : ParcelMap) (k : IRI) (v : ParcelInfo) : ParcelMap :=
  if m.any (fun p => p.1 = k) then m.map (fun p => if p.1 = k then (k, v) else p)
  else m ++ [(k, v)]

/-- Python-dict deletion `del m[k]`. -/
def dictDelete (m : ParcelMap) (k : IRI) : ParcelMap :=
  m.filter fun p => decide (p.1 ≠ k)

/-- Python-dict lookup `m.get(k)`. -/
def dictLookup (m : ParcelMap) (k : IRI) : Option ParcelInfo :=
  (m.find? fun p => p.1 = k).map (·.2)

/-- The adjacency matrix `self.adjacency_matrix`: an insertion-ordered dict
from module IRI to its connection list `[north, east, south, west]` (each slot
`none` or a connected module IRI), as built by `build_adjacency_matrix`. -/
abbrev Adj := List (IRI × List (Option IRI))

/-- Dict lookup `self.adjacency_matrix.get(module)`. -/
def adjLookup (adj : Adj) (m : IRI) : Option (List (Option IRI)) :=
  (adj.find? fun p => p.1 = m).map (·.2)

/-- The module set of the adjacency model (`list(self.adjacency_matrix.keys())`). -/
def adjModules (adj : Adj) : List IRI :=
  adj.map (·.1)

/-- Display helper `_shorten_iri`: trailing segment after the last hash, or
after the last slash when no hash occurs. -/
def shorten_iri (iri : String) : String :=
  if (iri.splitOn "#").length > 1 then (iri.splitOn "#").getLastD iri
  else (iri.splitOn "/").getLastD iri

/-- Source `delete_parcel`: collect every stored fact in which the parcel
occurs as subject or as object; raise `ValueError` (modelled as `none`) when
there are none, otherwise delete them all in one batch.  (The Python
`isinstance` guards on the returned triples are vacuous in this model, where
every stored fact is a string triple.) -/
def delete_parcel (db : List Triple) (parcelIri : IRI) : Option (List Triple) :=
  let toDel := triples_get db (some parcelIri) none none ++ triples_get db none none (some parcelIri)
  if toDel.isEmpty then none else some (triples_delete db toDel)

/-- Runner for `delete_parcel` making the store-frame behaviour of the raising
branch explicit: on the `ValueError` branch no delete call is issued, so the
store is returned unchanged with a `false` success flag. -/
def delete_parcel_run (db : List Triple) (parcelIri : IRI) : Bool × List Triple :=
  match delete_parcel db parcelIri with
  | none => (false, db)
  | some db' => (true, db')

/-- One module's step of the map-building loop of `get_parcels`: query the
store for a parcel the module possesses; when one exists take the first
matching triple's object as the parcel, query its first destination fact (its
object, else `None`), and record the pair in the map. -/
def buildStep (db : List Triple) (acc : ParcelMap) (mp : IRI × List (Option IRI)) : ParcelMap :=
  match triples_get db (some mp.1) (some possPred) none with
  | [] => acc
  | t :: _ =>
      let parcelIri := t.2.2
      let dest := (triples_get db (some parcelIri) (some destPred) none).head?.map (·.2.2)
      dictInsert acc parcelIri ⟨mp.1, dest⟩

/-- Source `get_parcels`, building phase: run `buildStep` over every module of
the adjacency model, in insertion order. -/
def buildParcels (db : List Triple) (adj : Adj) : ParcelMap :=
  adj.foldl (buildStep db) []

/-- Has this parcel reached its destination?  Python compares the position
string against the destination (which may be `None`; `None` never equals a
string). -/
def arrived (i : ParcelInfo) : Bool :=
  some i.current_position = i.destination

/-- One iteration of the arrival-cleanup loop of `get_parcels`: try to delete
the arrived parcel from the store and, on success, also from the map.  A
deletion failure (either the parcel's own `ValueError` when no fact mentions
it, or an exogenous store failure, modelled by membership in `failSet`) is
caught and logged, leaving both the store and the map entry as they were. -/
def cleanupStep (failSet : List IRI) (acc : List Triple × ParcelMap) (p : IRI) :
    List Triple × ParcelMap :=
  if p ∈ failSet then acc
  else
    match delete_parcel acc.1 p with
    | none => acc
    | some db' => (db', dictDelete acc.2 p)

/-- Source `get_parcels` (the Registry `sync()`): rebuild the parcel map from
the store, then delete every parcel whose current position equals its
destination, removing it from the map when (and only when) its store deletion
succeeds; return the resulting store and map. -/
def get_parcels (failSet : List IRI) (db : List Triple) (adj : Adj) :
    List Triple × ParcelMap :=
  let m := buildParcels db adj
  let toDelete := (m.filter fun x => arrived x.2).map (·.1)
  toDelete.foldl (cleanupStep failSet) (db, m)

/-- Instrumented variant of the cleanup iteration that additionally tracks
whether every deletion so far succeeded. -/
def cleanupStepB (failSet : List IRI) (acc : List Triple × ParcelMap × Bool) (p : IRI) :
    List Triple × ParcelMap × Bool :=
  if p ∈ failSet then (acc.1, acc.2.1, false)
  else
    match delete_parcel acc.1 p with
    | none => (acc.1, acc.2.1, false)
    | some db' => (db', dictDelete acc.2.1 p, acc.2.2)

/-- Instrumented `get_parcels`: same store and map as `get_parcels`, with a
flag that is `true` exactly when no arrival-cleanup deletion failed. -/
def get_parcels_checked (failSet : List IRI) (db : List Triple) (adj : Adj) :
    List Triple × ParcelMap × Bool :=
  let m := buildParcels db adj
  let toDelete := (m.filter fun x => arrived x.2).map (·.1)
  toDelete.foldl (cleanupStepB failSet) (db, m, true)

/-- The parcel IRI minted for counter value `n` (source `add_parcel`,
f-string `...FlexConveyor#parcel{self.parcel_counter + 1}`). -/
def parcel_iri_of (n : Nat) : IRI :=
  "https://www.sfb1574.kit.edu/ontologies/FlexConveyor#parcel" ++ toString n

/-- The five facts `add_parcel` inserts for a freshly minted parcel. -/
def newParcelTriples (p destination start : IRI) : List Triple :=
  [(p, typePred, parcelClass),
   (p, typePred, namedIndividual),
   (p, destPred, destination),
   (p, isPossPred, start),
   (start, possPred, p)]

/-- Source `add_parcel`: mint `parcel{counter+1}`, batch-insert its type,
destination and possession facts, increment the counter, then refresh the
parcel map via `get_parcels`.  Returns the new store, the refreshed map, and
the new counter. -/
def add_parcel (failSet : List IRI) (db : List Triple) (adj : Adj) (counter : Nat)
    (destination start : IRI) : List Triple × ParcelMap × Nat :=
  let p := parcel_iri_of (counter + 1)
  let db1 := triples_add db (newParcelTriples p destination start)
  let r := get_parcels failSet db1 adj
  (r.1, r.2, counter + 1)

/-- The errors `convey` can raise: `ValueError` for a module missing from the
adjacency matrix, `ValueError` for a move along no stored direction, and the
store's precondition/concurrency failure propagated from the conditioned
update. -/
inductive ConveyErr where
  | moduleNotFound
  | invalidMove
  | precondition
deriving DecidableEq

/-- Direction names in slot order, as in the source list
`["north", "east", "south", "west"]`. -/
def directionNames : List String :=
  ["north", "east", "south", "west"]

/-- Resolve the direction whose connection slot equals the requested next
module (first match in slot order), as the enumerate-loop of `convey` does.
The connection lists built by `build_adjacency_matrix` always have exactly
four slots, so zipping against the four direction names scans every slot. -/
def directionOf (connections : List (Option IRI)) (next : IRI) : Option String :=
  ((connections.zip directionNames).find? fun c => c.1 = some next).map (·.2)

/-- Source `convey`: look up the parcel possessed by `current` (first matching
triple's object, the empty string when none — the source proceeds in that
case), resolve the direction of the requested edge, and issue one conditioned
store update exchanging the two possession facts.  Errors leave the store
unchanged; the pair returned is (outcome with the human-readable log message,
resulting store). -/
def convey (db : List Triple) (adj : Adj) (current next : IRI) :
    Except ConveyErr String × List Triple :=
  let parcelList := triples_get db (some current) (some possPred) none
  let parcelIri := match parcelList with
    | [] => ""
    | t :: _ => t.2.2
  match adjLookup adj current with
  | none => (Except.error ConveyErr.moduleNotFound, db)
  | some connections =>
    match directionOf connections next with
    | none => (Except.error ConveyErr.invalidMove, db)
    | some dir =>
      let logMsg := "Conveying " ++ shorten_iri parcelIri ++ " into " ++ dir ++ " Direction."
      let oldT : List Triple := [(current, possPred, parcelIri), (parcelIri, isPossPred, current)]
      let newT : List Triple := [(next, possPred, parcelIri), (parcelIri, isPossPred, next)]
      match triples_update db oldT newT true with
      | none => (Except.error ConveyErr.precondition, db)
      | some db' => (Except.ok logMsg, db')

/-- The exceptions `find_path` can raise: the `KeyError` of the Python
distances-dict lookup when a connection points outside the module set, and an
artifact marker for exhausted recursion fuel (the Python loop is unbounded;
the chosen fuel is proved sufficient below). -/
inductive DijErr where
  | keyError
  | fuelOut
deriving DecidableEq

/-- The mutable state of the Dijkstra loop in `find_path`: the visited set,
the priority queue of (distance, module) pairs, the tentative distance of each
module (`none` is the Python `float("infinity")`), and the predecessor map. -/
structure DijState where
  visited : List IRI
  pq : List (Nat × IRI)
  dist : IRI → Option Nat
  prev : IRI → Option IRI

/-- Neighbour list of a module: `graph.get(u, [])` in the source, i.e. the
connection slots that are not `None`, in slot order (every edge has weight 1). -/
def nbrs (adj : Adj) (u : IRI) : List IRI :=
  ((adjLookup adj u).getD []).filterMap id

/-- Strict lexicographic order on heap entries, exactly the tuple comparison
`heapq` uses on `(distance, module_iri)` pairs. -/
def pairLtB (a b : Nat × IRI) : Bool :=
  decide (a.1 < b.1) || (decide (a.1 = b.1) && decide (a.2 < b.2))

/-- The value behaviour of `heapq.heappop`: remove and return the least entry
under the tuple order (the first occurrence, when several are equal). -/
def popMin : List (Nat × IRI) → Option ((Nat × IRI) × List (Nat × IRI))
  | [] => none
  | x :: xs =>
    match popMin xs with
    | none => some (x, [])
    | some (m, rest) => if pairLtB m x then some (m, x :: rest) else some (x, xs)

/-- One relaxation of the inner neighbour loop of `find_path`, for the popped
entry `(d, u)`: skip visited neighbours; otherwise look the neighbour up in
the distances dict (a miss is the Python `KeyError`), and when `d + 1`
improves on the stored distance, store it, record the predecessor, and push
`(d + 1, v)`. -/
def relaxOne (modules : List IRI) (d : Nat) (u : IRI) (s : DijState) (v : IRI) :
    Except DijErr DijState :=
  if v ∈ s.visited then Except.ok s
  else if v ∈ modules then
    let better := match s.dist v with
      | none => true
      | some e => decide (d + 1 < e)
    if better then
      Except.ok { s with
        dist := fun w => if w = v then some (d + 1) else s.dist w,
        prev := fun w => if w = v then some u else s.prev w,
        pq := s.pq ++ [(d + 1, v)] }
    else Except.ok s
  else Except.error DijErr.keyError

/-- The Dijkstra while-loop of `find_path`, fuelled: pop the least queue
entry, skip it when already visited, otherwise mark it visited, stop when it
is the target, and otherwise relax all its neighbours. -/
def dijLoop (adj : Adj) (modules : List IRI) (target : IRI) :
    Nat → DijState → Except DijErr DijState
  | 0, _ => Except.error DijErr.fuelOut
  | fuel + 1, s =>
    match popMin s.pq with
    | none => Except.ok s
    | some (du, rest) =>
      if du.2 ∈ s.visited then dijLoop adj modules target fuel { s with pq := rest }
      else
        let s1 : DijState := { s with pq := rest, visited := du.2 :: s.visited }
        if du.2 = target then Except.ok s1
        else
          match (nbrs adj du.2).foldlM (relaxOne modules du.1 du.2) s1 with
          | Except.error e => Except.error e
          | Except.ok s2 => dijLoop adj modules target fuel s2

/-- Fuel for the Dijkstra loop: one initial entry plus, per module, one visit
and at most one push per connection slot.  Proved sufficient below. -/
def dijFuel (adj : Adj) : Nat :=
  2 + adj.length + (adj.map fun c => c.2.length).sum

/-- The path-reconstruction loop of `find_path`: follow predecessor links from
the target back to a node with no predecessor, accumulating the path in
forward order (the Python code appends and reverses). -/
def reconstructPath (prev : IRI → Option IRI) : Nat → IRI → Option (List IRI)
  | 0, _ => none
  | fuel + 1, cur =>
    match prev cur with
    | none => some [cur]
    | some p => (reconstructPath prev fuel p).map (· ++ [cur])

/-- The four exits of `find_path`, including which diagnostic message the
source prints: unknown start module, unknown target module, a found path, or
no path.  The source's return value collapses the three non-path outcomes to
the same `None`; this tag keeps the printed diagnostics apart. -/
inductive PathOutcome where
  | unknownStart
  | unknownTarget
  | found (p : List IRI)
  | noPath
deriving DecidableEq

/-- Initial Dijkstra state: distances all infinite except 0 at the start,
no predecessors, the queue holding `(0, start)`, nothing visited. -/
def initState (s : IRI) : DijState :=
  { visited := [],
    pq := [(0, s)],
    dist := fun m => if m = s then some 0 else none,
    prev := fun _ => none }

/-- Source `find_path` with its printed diagnostics kept apart: check both
endpoints against the module set, return the single-node path when they are
equal, otherwise run Dijkstra's algorithm and either report no path (target
distance still infinite) or reconstruct the path from the predecessor map. -/
def find_path_full (adj : Adj) (s t : IRI) : Except DijErr PathOutcome :=
  let modules := adjModules adj
  if s ∉ modules then Except.ok PathOutcome.unknownStart
  else if t ∉ modules then Except.ok PathOutcome.unknownTarget
  else if s = t then Except.ok (PathOutcome.found [s])
  else
    match dijLoop adj modules t (dijFuel adj) (initState s) with
    | Except.error e => Except.error e
    | Except.ok sF =>
      match sF.dist t with
      | none => Except.ok PathOutcome.noPath
      | some e =>
        match reconstructPath sF.prev (e + 1) t with
        | none => Except.error DijErr.fuelOut
        | some p => Except.ok (PathOutcome.found p)

/-- The value the source's `find_path` actually returns for each outcome: the
path list, or `None` for all of unknown start, unknown target, and no path. -/
def outcomeValue : PathOutcome → Option (List IRI)
  | PathOutcome.found p => some p
  | _ => none

/-- Source `find_path`, return-value semantics: the reconstructed path, or
`None` (with only a printed message distinguishing why). -/
def find_path (adj : Adj) (s t : IRI) : Except DijErr (Option (List IRI)) :=
  (find_path_full adj s t).map outcomeValue

/-- A directed edge of the adjacency model: `v` occupies one of `u`'s
connection slots. -/
def Edge (adj : Adj) (u v : IRI) : Prop :=
  v ∈ nbrs adj u

instance (adj : Adj) (u v : IRI) : Decidable (Edge adj u v) :=
  inferInstanceAs (Decidable (v ∈ nbrs adj u))

/-- Ground truth for routing claims: `PathFrom adj s t p` says the node
sequence `p` is a directed path of the adjacency model from `s` to `t`
(so `p.length - 1` is its hop count). -/
inductive PathFrom (adj : Adj) : IRI → IRI → List IRI → Prop
  | single (u : IRI) : PathFrom adj u u [u]
  | cons (u v w : IRI) (p : List IRI) :
      Edge adj u v → PathFrom adj v w p → PathFrom adj u w (u :: p)

/-- Ground truth for reachability: some directed path exists. -/
def Reachable (adj : Adj) (s t : IRI) : Prop :=
  ∃ p, PathFrom adj s t p

/-- A closed adjacency model: every connection slot points back into the
model's own module set (no dangling neighbour). -/
def closedAdjB (adj : Adj) : Bool :=
  adj.all fun mc => mc.2.all fun c =>
    match c with
    | none => true
    | some v => decide (v ∈ adjModules adj)

/-- The full mutable state of a `FlexConveyorSystem` instance besides the
store connection: the adjacency matrix, the parcel map, and the counter. -/
structure SysState where
  adjacency_matrix : Adj
  parcels : ParcelMap
  parcel_counter : Nat

/-- `get_parcels` as a method: reads the adjacency matrix, replaces the parcel
map, touches nothing else. -/
def get_parcels_s (failSet : List IRI) (db : List Triple) (st : SysState) :
    List Triple × SysState :=
  let r := get_parcels failSet db st.adjacency_matrix
  (r.1, { st with parcels := r.2 })

/-- `convey` as a method: reads the adjacency matrix (and the parcel map, for
logging only), mutating only the store. -/
def convey_s (db : List Triple) (st : SysState) (current next : IRI) :
    (Except ConveyErr String × List Triple) × SysState :=
  (convey db st.adjacency_matrix current next, st)

/-- `add_parcel` as a method: bumps the counter and refreshes the parcel map. -/
def add_parcel_s (failSet : List IRI) (db : List Triple) (st : SysState)
    (destination start : IRI) : List Triple × SysState :=
  let r := add_parcel failSet db st.adjacency_matrix st.parcel_counter destination start
  (r.1, { st with parcels := r.2.1, parcel_counter := r.2.2 })

/-- `delete_parcel` as a method: mutates only the store. -/
def delete_parcel_s (db : List Triple) (st : SysState) (p : IRI) :
    (Bool × List Triple) × SysState :=
  (delete_parcel_run db p, st)

/-- `find_path` as a method: a pure function of the adjacency matrix. -/
def find_path_s (st : SysState) (s t : IRI) : Except DijErr (Option (List IRI)) :=
  find_path st.adjacency_matrix s t

/-- Weight of the still-unvisited modules, for the loop-termination measure:
one pop plus one push per connection slot each can still cost. -/
def sumWeights (adj : Adj) (visited : List IRI) : Nat :=
  (((adjModules adj).filter fun m => decide (m ∉ visited)).map
    fun m => 1 + (nbrs adj m).length).sum

/-- Termination measure of the Dijkstra loop: queue length plus the weight of
the unvisited modules.  Strictly decreases at every iteration. -/
def dijMeasure (adj : Adj) (st : DijState) : Nat :=
  st.pq.length + sumWeights adj st.visited

/-- The loop invariant of the Dijkstra loop, relating the four state
components to the ground-truth paths of the adjacency model. -/
structure Inv (adj : Adj) (s : IRI) (st : DijState) : Prop where
  distS : st.dist s = some 0
  pqMod : ∀ e ∈ st.pq, e.2 ∈ adjModules adj
  pqDist : ∀ e ∈ st.pq, ∃ k, st.dist e.2 = some k ∧ k ≤ e.1
  unvisPq : ∀ v k, v ∉ st.visited → st.dist v = some k → (k, v) ∈ st.pq
  sound : ∀ v k, st.dist v = some k → ∃ p, PathFrom adj s v p ∧ p.length = k + 1
  visMod : ∀ v ∈ st.visited, v ∈ adjModules adj
  visDist : ∀ v ∈ st.visited, ∃ k, st.dist v = some k
  visMin : ∀ v ∈ st.visited, ∀ k, st.dist v = some k → ∀ p, PathFrom adj s v p → k + 1 ≤ p.length
  prevEdge : ∀ v u, st.prev v = some u → Edge adj u v ∧
    (∀ kv, st.dist v = some kv → ∃ ku, st.dist u = some ku ∧ ku < kv)
  prevNone : ∀ v k, st.dist v = some k → st.prev v = none → v = s

/-- The edges out of visited nodes have all been relaxed: every unvisited
neighbour of a visited node has a finite tentative distance at most one hop
above the visited node's distance.  (Kept apart from `Inv` because the
early exit at the target adds the target to the visited set without relaxing
its edges.) -/
def Relaxed (adj : Adj) (st : DijState) : Prop :=
  ∀ z ∈ st.visited, ∀ v ∈ nbrs adj z, v ∉ st.visited →
    ∃ k kz, st.dist v = some k ∧ st.dist z = some kz ∧ k ≤ kz + 1

/-- What holds of the final Dijkstra state, in both exit cases (queue
exhausted, or target popped): distances are witnessed by paths, predecessor
links are edges that strictly decrease the distance, only the start lacks a
predecessor, and the target's distance is `none` exactly when the target is
unreachable — and otherwise a lower bound on every path's hop count. -/
def GoodFinal (adj : Adj) (s target : IRI) (st : DijState) : Prop :=
  (∀ v k, st.dist v = some k → ∃ p, PathFrom adj s v p ∧ p.length = k + 1) ∧
  (∀ v u, st.prev v = some u → Edge adj u v ∧
    (∀ kv, st.dist v = some kv → ∃ ku, st.dist u = some ku ∧ ku < kv)) ∧
  (∀ v k, st.dist v = some k → st.prev v = none → v = s) ∧
  ((st.dist target = none ∧ ¬ Reachable adj s target) ∨
   (∃ k, st.dist target = some k ∧ (∀ p, PathFrom adj s target p → k + 1 ≤ p.length)))

theorem mem_filterMap_id {l : List (Option IRI)} {v : IRI} :
    v ∈ l.filterMap id ↔ some v ∈ l := by
  simp [List.mem_filterMap]

/-- C10: for every module identifier absent from the adjacency model, `convey`
raises `ValueError` (module not found in adjacency matrix) before resolving a
direction and before issuing any store mutation, so the store is unchanged. -/
theorem convey_unknown_module_unchanged (db : List Triple) (adj : Adj) (current next : IRI)
    (h : adjLookup adj current = none) :
    convey db adj current next = (Except.error ConveyErr.moduleNotFound, db) := by
  simp [convey, h]

theorem convey_unknown_module_unchanged_witness :
    adjLookup [] "moduleX" = none ∧
    convey [] [] "moduleX" "moduleY" = (Except.error ConveyErr.moduleNotFound, []) :=
  ⟨by decide, convey_unknown_module_unchanged [] [] "moduleX" "moduleY" (by decide)⟩

/-- C4: for every pair of modules with no directed edge between them (the
source module being present in the adjacency model), `convey` fails with the
"no valid direction" usage error and the store is left unchanged. -/
theorem convey_invalid_move_unchanged (db : List Triple) (adj : Adj) (current next : IRI)
    (cs : List (Option IRI)) (hc : adjLookup adj current = some cs)
    (hno : ¬ Edge adj current next) :
    convey db adj current next = (Except.error ConveyErr.invalidMove, db) := by
  have hcs : some next ∉ cs := by
    intro hmem
    apply hno
    have : next ∈ cs.filterMap id := mem_filterMap_id.mpr hmem
    unfold Edge nbrs
    rw [hc]
    simpa using this
  have hdir : directionOf cs next = none := by
    unfold directionOf
    have : (cs.zip directionNames).find? (fun c => decide (c.1 = some next)) = none := by
      rw [List.find?_eq_none]
      intro x hx
      simp only [decide_eq_true_eq]
      intro hx1
      exact hcs (hx1 ▸ (List.of_mem_zip hx).1)
    rw [this]
    rfl
  simp [convey, hc, hdir]

theorem convey_invalid_move_unchanged_witness :
    adjLookup [("A", [some "B", none, none, none]), ("B", [none, none, none, none])] "A"
      = some [some "B", none, none, none] ∧
    ¬ Edge [("A", [some "B", none, none, none]), ("B", [none, none, none, none])] "A" "C" ∧
    convey [] [("A", [some "B", none, none, none]), ("B", [none, none, none, none])] "A" "C"
      = (Except.error ConveyErr.invalidMove, []) :=
  ⟨by decide, by decide,
    convey_invalid_move_unchanged [] [("A", [some "B", none, none, none]),
      ("B", [none, none, none, none])] "A" "C" [some "B", none, none, none]
      (by decide) (by decide)⟩

/-- C8: evaluation of `convey` at a state where the directed edge exists but
no parcel occupies the source module.  The source does not fail with a usage
error: it proceeds with the empty parcel identifier and sends the conditioned
update to the store (which here rejects it as a precondition failure, a
concurrency-class error, since the empty-parcel possession facts are absent). -/
theorem convey_empty_occupant_eval :
    convey [] [("A", [some "B", none, none, none]), ("B", [none, none, none, none])] "A" "B"
      = (Except.error ConveyErr.precondition, []) := rfl

/-- C9: every operation invoked after construction (`get_parcels`, `convey`,
`add_parcel`, `delete_parcel`, `find_path`) leaves the adjacency model of the
instance state unchanged; `find_path` is a pure function of it. -/
theorem operations_preserve_adjacency (failSet : List IRI) (db : List Triple) (st : SysState)
    (current next destination start p s t : IRI) :
    (get_parcels_s failSet db st).2.adjacency_matrix = st.adjacency_matrix ∧
    (convey_s db st current next).2.adjacency_matrix = st.adjacency_matrix ∧
    (add_parcel_s failSet db st destination start).2.adjacency_matrix = st.adjacency_matrix ∧
    (delete_parcel_s db st p).2.adjacency_matrix = st.adjacency_matrix ∧
    find_path_s st s t = find_path st.adjacency_matrix s t :=
  ⟨rfl, rfl, rfl, rfl, rfl⟩

/-- C7: `delete_parcel` on an identifier that no stored fact mentions as
subject or object fails with the "not found" error and leaves the store
unchanged; on a mentioned identifier it succeeds and deletes every fact in
which the identifier appears in either role, so both subsequent queries
return empty. -/
theorem delete_parcel_spec (db : List Triple) (p : IRI) :
    ((∀ t ∈ db, t.1 ≠ p ∧ t.2.2 ≠ p) → delete_parcel_run db p = (false, db)) ∧
    ((∃ t ∈ db, t.1 = p ∨ t.2.2 = p) →
      (delete_parcel_run db p).1 = true ∧
      triples_get (delete_parcel_run db p).2 (some p) none none = [] ∧
      triples_get (delete_parcel_run db p).2 none none (some p) = []) := by
  constructor
  · intro h
    have h1 : triples_get db (some p) none none = [] := by
      rw [triples_get, List.filter_eq_nil_iff]
      intro t ht
      simp only [matchesOpt, Bool.and_eq_true, Bool.and_true, Bool.true_and, decide_eq_true_eq]
      exact fun hp => (h t ht).1 hp.symm
    have h2 : triples_get db none none (some p) = [] := by
      rw [triples_get, List.filter_eq_nil_iff]
      intro t ht
      simp only [matchesOpt, Bool.and_eq_true, Bool.and_true, Bool.true_and, decide_eq_true_eq]
      exact fun hp => (h t ht).2 hp.symm
    simp [delete_parcel_run, delete_parcel, h1, h2]
  · rintro ⟨t, ht, hrole⟩
    have hmem : t ∈ triples_get db (some p) none none ++ triples_get db none none (some p) := by
      rcases hrole with h1 | h2
      · apply List.mem_append_left
        rw [triples_get, List.mem_filter]
        exact ⟨ht, by simp [matchesOpt, h1]⟩
      · apply List.mem_append_right
        rw [triples_get, List.mem_filter]
        exact ⟨ht, by simp [matchesOpt, h2]⟩
    have hne : (triples_get db (some p) none none ++ triples_get db none none (some p)) ≠ [] :=
      List.ne_nil_of_mem hmem
    have hrun : delete_parcel_run db p =
        (true, triples_delete db
          (triples_get db (some p) none none ++ triples_get db none none (some p))) := by
      rw [delete_parcel_run, delete_parcel]
      simp only [List.isEmpty_eq_true, hne, if_false, ite_false]
    refine ⟨by rw [hrun], ?_, ?_⟩
    · rw [hrun]
      rw [triples_get, List.filter_eq_nil_iff]
      intro u hu
      rw [triples_delete, List.mem_filter] at hu
      simp only [matchesOpt, Bool.and_eq_true, Bool.and_true, Bool.true_and, decide_eq_true_eq]
      intro hp
      have hmem' : u ∈ triples_get db (some p) none none := by
        rw [triples_get, List.mem_filter]
        exact ⟨hu.1, by simp [matchesOpt, hp.symm]⟩
      have hnotin := of_decide_eq_true hu.2
      exact absurd (List.mem_append_left _ hmem') hnotin
    · rw [hrun]
      rw [triples_get, List.filter_eq_nil_iff]
      intro u hu
      rw [triples_delete, List.mem_filter] at hu
      simp only [matchesOpt, Bool.and_eq_true, Bool.and_true, Bool.true_and, decide_eq_true_eq]
      intro hp
      have hmem' : u ∈ triples_get db none none (some p) := by
        rw [triples_get, List.mem_filter]
        exact ⟨hu.1, by simp [matchesOpt, hp.symm]⟩
      have hnotin := of_decide_eq_true hu.2
      exact absurd (List.mem_append_right _ hmem') hnotin

theorem delete_parcel_spec_witness :
    delete_parcel_run [("M1", "q", "X")] "P1" = (false, [("M1", "q", "X")]) ∧
    ((delete_parcel_run [("M1", "q", "P1"), ("P1", "q", "M2")] "P1").1 = true ∧
      triples_get (delete_parcel_run [("M1", "q", "P1"), ("P1", "q", "M2")] "P1").2
        (some "P1") none none = [] ∧
      triples_get (delete_parcel_run [("M1", "q", "P1"), ("P1", "q", "M2")] "P1").2
        none none (some "P1") = []) :=
  ⟨(delete_parcel_spec [("M1", "q", "X")] "P1").1 (by decide),
   (delete_parcel_spec [("M1", "q", "P1"), ("P1", "q", "M2")] "P1").2 (by decide)⟩

/-- C3 (amended): `find_path` called with an identifier absent from the model
returns the same `None` value as the no-path case — the source distinguishes
the cases only in the printed diagnostic (the outcome tag of
`find_path_full`), not in the returned value. -/
theorem find_path_unknown_module_value (adj : Adj) (x s t : IRI)
    (hx : x ∉ adjModules adj) (hs : s ∈ adjModules adj) :
    (find_path_full adj x t = Except.ok PathOutcome.unknownStart ∧
      find_path adj x t = Except.ok none) ∧
    (find_path_full adj s x = Except.ok PathOutcome.unknownTarget ∧
      find_path adj s x = Except.ok none) ∧
    (∀ a b, find_path_full adj a b = Except.ok PathOutcome.noPath →
      find_path adj a b = Except.ok none) ∧
    PathOutcome.unknownStart ≠ PathOutcome.noPath ∧
    PathOutcome.unknownTarget ≠ PathOutcome.noPath := by
  have h1 : find_path_full adj x t = Except.ok PathOutcome.unknownStart := by
    simp [find_path_full, hx]
  have h2 : find_path_full adj s x = Except.ok PathOutcome.unknownTarget := by
    simp [find_path_full, hs, hx]
  refine ⟨⟨h1, ?_⟩, ⟨h2, ?_⟩, ?_, by simp, by simp⟩
  · rw [find_path, h1]; rfl
  · rw [find_path, h2]; rfl
  · intro a b hab
    rw [find_path, hab]; rfl

theorem find_path_unknown_module_value_witness :
    "X" ∉ adjModules [("A", [none, none, none, none]), ("B", [none, none, none, none])] ∧
    "A" ∈ adjModules [("A", [none, none, none, none]), ("B", [none, none, none, none])] ∧
    find_path [("A", [none, none, none, none]), ("B", [none, none, none, none])] "X" "B"
      = Except.ok none :=
  ⟨by decide, by decide,
    ((find_path_unknown_module_value [("A", [none, none, none, none]),
      ("B", [none, none, none, none])] "X" "A" "B" (by decide) (by decide)).1).2⟩

/-- C3 (counterexample): the claim as stated is false — on this model the
unknown-module call and the no-path call return the very same value
`Except.ok none`, so the two results are not distinguishable. -/
theorem find_path_unknown_vs_nopath_counterexample :
    find_path [("A", [none, none, none, none]), ("B", [none, none, none, none])] "X" "A"
      = Except.ok none ∧
    find_path [("A", [none, none, none, none]), ("B", [none, none, none, none])] "A" "B"
      = Except.ok none := ⟨rfl, rfl⟩

theorem dictLookup_dictInsert_self (m : ParcelMap) (k : IRI) (v : ParcelInfo) :
    dictLookup (dictInsert m k v) k = some v := by
  unfold dictInsert dictLookup
  split
  · rename_i hany
    rw [List.find?_map]
    have hp : (fun (p : IRI × ParcelInfo) => decide (p.1 = k)) ∘
        (fun p => if p.1 = k then (k, v) else p) = fun p => decide (p.1 = k) := by
      funext q
      by_cases hq : q.1 = k <;> simp [hq]
    rw [hp]
    obtain ⟨q, hq, hqk⟩ := List.any_eq_true.mp hany
    cases hfind : m.find? fun p => decide (p.1 = k) with
    | none =>
      rw [List.find?_eq_none] at hfind
      exact absurd hqk (hfind q hq)
    | some x =>
      have hx := List.find?_some hfind
      simp only [decide_eq_true_eq] at hx
      simp [hx]
  · rename_i hany
    rw [List.find?_append]
    have h1 : m.find? (fun p => decide (p.1 = k)) = none := by
      rw [List.find?_eq_none]
      intro x hx
      simp only [decide_eq_true_eq]
      intro he
      exact hany (List.any_eq_true.mpr ⟨x, hx, by simp [he]⟩)
    rw [h1]
    simp

theorem dictLookup_dictInsert_other (m : ParcelMap) (k q : IRI) (v : ParcelInfo)
    (h : q ≠ k) : dictLookup (dictInsert m k v) q = dictLookup m q := by
  unfold dictInsert dictLookup
  split
  · rw [List.find?_map]
    have hp : (fun (p : IRI × ParcelInfo) => decide (p.1 = q)) ∘
        (fun p => if p.1 = k then (k, v) else p) = fun p => decide (p.1 = q) := by
      funext x
      by_cases hx : x.1 = k <;> simp [hx]
    rw [hp]
    cases hfind : m.find? fun p => decide (p.1 = q) with
    | none => simp
    | some x =>
      have hx := List.find?_some hfind
      simp only [decide_eq_true_eq] at hx
      have : x.1 ≠ k := hx ▸ h
      simp [this]
  · rw [List.find?_append]
    cases hfind : m.find? fun p => decide (p.1 = q) with
    | none => simp [Ne.symm h]
    | some x => simp

theorem mem_dictInsert {m : ParcelMap} {k : IRI} {v : ParcelInfo} {x : IRI × ParcelInfo}
    (h : x ∈ dictInsert m k v) : x = (k, v) ∨ x ∈ m := by
  unfold dictInsert at h
  split at h
  · rcases List.mem_map.mp h with ⟨p, hp, he⟩
    by_cases hc : p.1 = k
    · left
      rw [← he]
      simp [hc]
    · right
      rw [← he]
      simp only [hc, if_false, ite_false]
      exact hp
  · rcases List.mem_append.mp h with h1 | h1
    · right
      exact h1
    · left
      simpa using h1

theorem keys_nodup_dictInsert {m : ParcelMap} {k : IRI} {v : ParcelInfo}
    (h : (m.map Prod.fst).Nodup) : ((dictInsert m k v).map Prod.fst).Nodup := by
  unfold dictInsert
  split
  · have he : (m.map fun p => if p.1 = k then (k, v) else p).map Prod.fst = m.map Prod.fst := by
      rw [List.map_map]
      apply List.map_congr_left
      intro p _
      by_cases hp : p.1 = k <;> simp [hp]
    rw [he]
    exact h
  · rename_i hany
    rw [List.map_append]
    apply List.Nodup.append h (by simp)
    intro a ha hb
    simp only [List.map_cons, List.map_nil, List.mem_singleton] at hb
    subst hb
    rcases List.mem_map.mp ha with ⟨q, hq, hqk⟩
    exact hany (List.any_eq_true.mpr ⟨q, hq, by simp [hqk]⟩)

theorem mem_iff_dictLookup {m : ParcelMap} (h : (m.map Prod.fst).Nodup) (k : IRI)
    (i : ParcelInfo) : (k, i) ∈ m ↔ dictLookup m k = some i := by
  induction m with
  | nil => simp [dictLookup]
  | cons hd tl ih =>
    rw [List.map_cons, List.nodup_cons] at h
    by_cases hc : hd.1 = k
    · have hfind : dictLookup (hd :: tl) k = some hd.2 := by
        rw [dictLookup, List.find?_cons_of_pos _ (by simpa using hc)]
        rfl
      rw [hfind]
      constructor
      · intro hm
        rcases List.mem_cons.mp hm with he | ht
        · rw [← he]
        · exact absurd (hc ▸ List.mem_map.mpr ⟨(k, i), ht, rfl⟩) h.1
      · intro he
        have h2 : hd.2 = i := by injection he
        have h3 : hd = (k, i) := by rw [← hc, ← h2]
        exact List.mem_cons.mpr (Or.inl h3.symm)
    · have hfind : dictLookup (hd :: tl) k = dictLookup tl k := by
        rw [dictLookup, List.find?_cons_of_neg _ (by simpa using hc)]
        rfl
      rw [hfind, ← ih h.2]
      constructor
      · intro hm
        rcases List.mem_cons.mp hm with he | ht
        · exact absurd (congrArg Prod.fst he.symm) hc
        · exact ht
      · exact fun ht => List.mem_cons_of_mem _ ht

theorem mem_dictDelete {m : ParcelMap} {k : IRI} {x : IRI × ParcelInfo}
    (h : x ∈ dictDelete m k) : x ∈ m ∧ x.1 ≠ k := by
  unfold dictDelete at h
  have := List.mem_filter.mp h
  exact ⟨this.1, by simpa using this.2⟩

theorem dictLookup_dictDelete_other (m : ParcelMap) (k q : IRI) (h : q ≠ k) :
    dictLookup (dictDelete m k) q = dictLookup m q := by
  induction m with
  | nil => rfl
  | cons hd tl ih =>
    by_cases hc : hd.1 = k
    · have h1 : dictDelete (hd :: tl) k = dictDelete tl k := by
        rw [dictDelete, dictDelete, List.filter_cons_of_neg (by simpa using hc)]
      have h2 : dictLookup (hd :: tl) q = dictLookup tl q := by
        have hne : ¬ hd.1 = q := by
          rw [hc]
          exact fun he => h he.symm
        rw [dictLookup, List.find?_cons_of_neg _ (by simpa using hne)]
        rfl
      rw [h1, h2, ih]
    · have h1 : dictDelete (hd :: tl) k = hd :: dictDelete tl k := by
        rw [dictDelete, dictDelete, List.filter_cons_of_pos (by simpa using hc)]
      rw [h1]
      by_cases hq : hd.1 = q
      · rw [dictLookup, List.find?_cons_of_pos _ (by simpa using hq),
          dictLookup, List.find?_cons_of_pos _ (by simpa using hq)]
      · rw [dictLookup, List.find?_cons_of_neg _ (by simpa using hq),
          dictLookup, List.find?_cons_of_neg _ (by simpa using hq)]
        exact ih

theorem cleanupStepB_false (failSet : List IRI) (acc : List Triple × ParcelMap × Bool)
    (p : IRI) (h : acc.2.2 = false) : (cleanupStepB failSet acc p).2.2 = false := by
  unfold cleanupStepB
  split
  · rfl
  · split
    · rfl
    · exact h

theorem foldB_false (failSet : List IRI) (L : List IRI) :
    ∀ acc, acc.2.2 = false → (L.foldl (cleanupStepB failSet) acc).2.2 = false := by
  induction L with
  | nil => exact fun acc h => h
  | cons q L ih =>
    intro acc h
    exact ih _ (cleanupStepB_false failSet acc q h)

theorem foldB_proj (failSet : List IRI) (L : List IRI) :
    ∀ (db : List Triple) (m : ParcelMap) (b : Bool),
      ((L.foldl (cleanupStepB failSet) (db, m, b)).1,
        (L.foldl (cleanupStepB failSet) (db, m, b)).2.1)
        = L.foldl (cleanupStep failSet) (db, m) := by
  induction L with
  | nil => intro db m b; rfl
  | cons q L ih =>
    intro db m b
    rw [List.foldl_cons, List.foldl_cons]
    by_cases hq : q ∈ failSet
    · rw [show cleanupStepB failSet (db, m, b) q = (db, m, false) from by
        simp [cleanupStepB, hq]]
      rw [show cleanupStep failSet (db, m) q = (db, m) from by
        simp [cleanupStep, hq]]
      exact ih db m false
    · cases hdel : delete_parcel db q with
      | none =>
        rw [show cleanupStepB failSet (db, m, b) q = (db, m, false) from by
          simp [cleanupStepB, hq, hdel]]
        rw [show cleanupStep failSet (db, m) q = (db, m) from by
          simp [cleanupStep, hq, hdel]]
        exact ih db m false
      | some db' =>
        rw [show cleanupStepB failSet (db, m, b) q = (db', dictDelete m q, b) from by
          simp [cleanupStepB, hq, hdel]]
        rw [show cleanupStep failSet (db, m) q = (db', dictDelete m q) from by
          simp [cleanupStep, hq, hdel]]
        exact ih db' (dictDelete m q) b

theorem foldB_success_mem (failSet : List IRI) (L : List IRI) :
    ∀ acc, (L.foldl (cleanupStepB failSet) acc).2.2 = true →
      ∀ x ∈ (L.foldl (cleanupStepB failSet) acc).2.1, x ∈ acc.2.1 ∧ x.1 ∉ L := by
  induction L with
  | nil => exact fun acc _ x hx => ⟨hx, by simp⟩
  | cons q L ih =>
    intro acc hflag x hx
    have hstep : (cleanupStepB failSet acc q).2.2 = true := by
      by_contra hb
      rw [Bool.not_eq_true] at hb
      rw [List.foldl_cons, foldB_false failSet L _ hb] at hflag
      cases hflag
    rw [List.foldl_cons] at hflag hx
    have hrec := ih (cleanupStepB failSet acc q) hflag x hx
    have hq : q ∉ failSet := by
      intro hmem
      have hf : (cleanupStepB failSet acc q).2.2 = false := by simp [cleanupStepB, hmem]
      rw [hf] at hstep
      cases hstep
    obtain ⟨db', hdel⟩ : ∃ db', delete_parcel acc.1 q = some db' := by
      cases hdel : delete_parcel acc.1 q with
      | none =>
        have hf : (cleanupStepB failSet acc q).2.2 = false := by simp [cleanupStepB, hq, hdel]
        rw [hf] at hstep
        cases hstep
      | some db' => exact ⟨db', rfl⟩
    have heq : cleanupStepB failSet acc q = (db', dictDelete acc.2.1 q, acc.2.2) := by
      simp [cleanupStepB, hq, hdel]
    rw [heq] at hrec
    have hmem := mem_dictDelete hrec.1
    refine ⟨hmem.1, ?_⟩
    intro hxm
    rcases List.mem_cons.mp hxm with he | ht
    · exact hmem.2 he
    · exact hrec.2 ht

/-- C2 (amended): provided every arrival-cleanup deletion of the sync
succeeds, the map `get_parcels` returns contains no parcel whose current
position equals its destination.  (When a deletion fails the source keeps
that parcel in the returned map, which is why the success hypothesis is
needed; see the counterexample.) -/
theorem get_parcels_no_arrived_when_cleanup_succeeds (failSet : List IRI) (db : List Triple)
    (adj : Adj) (h : (get_parcels_checked failSet db adj).2.2 = true) :
    ∀ x ∈ (get_parcels failSet db adj).2, arrived x.2 = false := by
  intro x hx
  have hproj := foldB_proj failSet
    (((buildParcels db adj).filter fun y => arrived y.2).map (·.1)) db (buildParcels db adj) true
  have hx' : x ∈ ((((buildParcels db adj).filter fun y => arrived y.2).map (·.1)).foldl
      (cleanupStepB failSet) (db, buildParcels db adj, true)).2.1 := by
    rw [get_parcels] at hx
    rw [← congrArg Prod.snd hproj] at hx
    exact hx
  have hres := foldB_success_mem failSet _ _ h x hx'
  cases harr : arrived x.2 with
  | false => rfl
  | true =>
    exfalso
    apply hres.2
    exact List.mem_map.mpr ⟨x, List.mem_filter.mpr ⟨hres.1, by simp [harr]⟩, rfl⟩

theorem get_parcels_no_arrived_when_cleanup_succeeds_witness :
    (get_parcels_checked [] [("M1", possPred, "P1"), ("P1", destPred, "M1")]
      [("M1", [none, none, none, none])]).2.2 = true ∧
    ∀ x ∈ (get_parcels [] [("M1", possPred, "P1"), ("P1", destPred, "M1")]
      [("M1", [none, none, none, none])]).2, arrived x.2 = false :=
  ⟨by decide,
    get_parcels_no_arrived_when_cleanup_succeeds [] [("M1", possPred, "P1"), ("P1", destPred, "M1")]
      [("M1", [none, none, none, none])] (by decide)⟩

/-- C2 (counterexample): a store state on which a sync returns a parcel whose
current position equals its destination.  Both parcels here are arrived;
deleting the first one removes every fact mentioning the second (the
identifiers cross-mention each other), so the second deletion fails with the
"not found" error and the source leaves that parcel in the returned map. -/
theorem get_parcels_arrived_survives_counterexample :
    get_parcels []
      [("A", possPred, "B"), ("B", possPred, "A"), ("B", destPred, "A"), ("A", destPred, "B")]
      [("A", [none, none, none, none]), ("B", [none, none, none, none])]
      = ([], [("A", ⟨"B", some "B"⟩)]) ∧
    arrived ⟨"B", some "B"⟩ = true := ⟨rfl, rfl⟩

theorem cleanup_keep (failSet : List IRI) (L : List IRI) :
    ∀ (acc : List Triple × ParcelMap) (p : IRI) (i : ParcelInfo),
      dictLookup acc.2 p = some i → (p ∈ failSet ∨ p ∉ L) →
      dictLookup (L.foldl (cleanupStep failSet) acc).2 p = some i := by
  induction L with
  | nil => exact fun acc p i h _ => h
  | cons q L ih =>
    intro acc p i h hdisj
    rw [List.foldl_cons]
    have hdisj' : p ∈ failSet ∨ p ∉ L := by
      rcases hdisj with hf | hn
      · exact Or.inl hf
      · exact Or.inr fun hm => hn (List.mem_cons_of_mem _ hm)
    refine ih _ p i ?_ hdisj'
    by_cases hq : q ∈ failSet
    · rw [show cleanupStep failSet acc q = acc from by simp [cleanupStep, hq]]
      exact h
    · cases hdel : delete_parcel acc.1 q with
      | none =>
        rw [show cleanupStep failSet acc q = acc from by simp [cleanupStep, hq, hdel]]
        exact h
      | some db' =>
        rw [show cleanupStep failSet acc q = (db', dictDelete acc.2 q) from by
          simp [cleanupStep, hq, hdel]]
        show dictLookup (dictDelete acc.2 q) p = some i
        have hpq : p ≠ q := by
          intro he
          rcases hdisj with hf | hn
          · exact hq (he ▸ hf)
          · exact hn (he ▸ List.mem_cons_self q L)
        rw [dictLookup_dictDelete_other _ _ _ hpq]
        exact h

/-- C5 (amended): when the deletion of an arrived parcel fails during a sync
(modelled by the failure oracle), the sync still completes but that parcel
remains in the returned map with its observed position and destination — it
is not left out, contrary to the claim; it will be retried on the next sync. -/
theorem get_parcels_failed_delete_parcel_remains (failSet : List IRI) (db : List Triple)
    (adj : Adj) (p : IRI) (i : ParcelInfo)
    (hmem : dictLookup (buildParcels db adj) p = some i)
    (harr : arrived i = true) (hfail : p ∈ failSet) :
    dictLookup (get_parcels failSet db adj).2 p = some i := by
  rw [get_parcels]
  exact cleanup_keep failSet _ (db, buildParcels db adj) p i hmem (Or.inl hfail)

theorem get_parcels_failed_delete_parcel_remains_witness :
    dictLookup (buildParcels [("M1", possPred, "P1"), ("P1", destPred, "M1")]
      [("M1", [none, none, none, none])]) "P1" = some ⟨"M1", some "M1"⟩ ∧
    arrived ⟨"M1", some "M1"⟩ = true ∧ "P1" ∈ (["P1"] : List IRI) ∧
    dictLookup (get_parcels ["P1"] [("M1", possPred, "P1"), ("P1", destPred, "M1")]
      [("M1", [none, none, none, none])]).2 "P1" = some ⟨"M1", some "M1"⟩ :=
  ⟨by decide, by decide, by decide,
    get_parcels_failed_delete_parcel_remains ["P1"]
      [("M1", possPred, "P1"), ("P1", destPred, "M1")] [("M1", [none, none, none, none])]
      "P1" ⟨"M1", some "M1"⟩ (by decide) (by decide) (by decide)⟩

/-- C5 (counterexample): a sync during which the deletion of the arrived
parcel P1 fails; the parcel is nevertheless present in — not absent from —
the map returned to the caller. -/
theorem get_parcels_failed_delete_counterexample :
    arrived ⟨"M2", some "M2"⟩ = true ∧
    dictLookup (get_parcels ["P2"] [("M2", possPred, "P2"), ("P2", destPred, "M2")]
      [("M2", [none, none, none, none])]).2 "P2" = some ⟨"M2", some "M2"⟩ := ⟨rfl, rfl⟩

theorem triples_get_append (d1 d2 : List Triple) (a b c : Option IRI) :
    triples_get (d1 ++ d2) a b c = triples_get d1 a b c ++ triples_get d2 a b c := by
  simp [triples_get, List.filter_append]

theorem new_poss_matches (p dest start m : IRI) :
    triples_get (newParcelTriples p dest start) (some m) (some possPred) none
      = if m = start then [(start, possPred, p)] else [] := by
  have c1 : possPred ≠ typePred := by decide
  have c2 : possPred ≠ destPred := by decide
  have c3 : possPred ≠ isPossPred := by decide
  by_cases h : m = start <;>
    simp [newParcelTriples, triples_get, matchesOpt, h, c1, c2, c3]

theorem new_dest_matches (p dest start q : IRI) :
    triples_get (newParcelTriples p dest start) (some q) (some destPred) none
      = if q = p then [(p, destPred, dest)] else [] := by
  have c1 : destPred ≠ typePred := by decide
  have c2 : destPred ≠ possPred := by decide
  have c3 : destPred ≠ isPossPred := by decide
  by_cases h : q = p <;>
    simp [newParcelTriples, triples_get, matchesOpt, h, c1, c2, c3]

theorem buildStep_cases (d : List Triple) (a : ParcelMap) (mp : IRI × List (Option IRI)) :
    (triples_get d (some mp.1) (some possPred) none = [] ∧ buildStep d a mp = a) ∨
    (∃ t rest, triples_get d (some mp.1) (some possPred) none = t :: rest ∧
      buildStep d a mp = dictInsert a t.2.2
        ⟨mp.1, (triples_get d (some t.2.2) (some destPred) none).head?.map (·.2.2)⟩) := by
  unfold buildStep
  cases hg : triples_get d (some mp.1) (some possPred) none with
  | nil => exact Or.inl ⟨rfl, rfl⟩
  | cons t rest => exact Or.inr ⟨t, rest, rfl, rfl⟩

theorem buildFold_provenance (d : List Triple) :
    ∀ (l : List (IRI × List (Option IRI))) (a : ParcelMap) (x : IRI × ParcelInfo),
      x ∈ l.foldl (buildStep d) a → x ∈ a ∨ ∃ t ∈ d, t.2.2 = x.1 := by
  intro l
  induction l with
  | nil => exact fun a x hx => Or.inl hx
  | cons mp l ih =>
    intro a x hx
    rw [List.foldl_cons] at hx
    rcases ih _ x hx with hxa | hex
    · rcases buildStep_cases d a mp with ⟨_, he⟩ | ⟨t, rest, hg, he⟩
      · rw [he] at hxa
        exact Or.inl hxa
      · rw [he] at hxa
        rcases mem_dictInsert hxa with hxe | hxm
        · right
          refine ⟨t, ?_, ?_⟩
          · have ht : t ∈ triples_get d (some mp.1) (some possPred) none := by
              rw [hg]
              exact List.mem_cons_self _ _
            rw [triples_get] at ht
            exact (List.mem_filter.mp ht).1
          · rw [hxe]
        · exact Or.inl hxm
    · exact Or.inr hex

theorem buildFold_keys_nodup (d : List Triple) :
    ∀ (l : List (IRI × List (Option IRI))) (a : ParcelMap),
      (a.map Prod.fst).Nodup → ((l.foldl (buildStep d) a).map Prod.fst).Nodup := by
  intro l
  induction l with
  | nil => exact fun a h => h
  | cons mp l ih =>
    intro a h
    rw [List.foldl_cons]
    apply ih
    rcases buildStep_cases d a mp with ⟨_, he⟩ | ⟨t, rest, hg, he⟩
    · rw [he]
      exact h
    · rw [he]
      exact keys_nodup_dictInsert h

theorem buildParcels_keys_nodup (d : List Triple) (adj : Adj) :
    ((buildParcels d adj).map Prod.fst).Nodup := by
  rw [buildParcels]
  exact buildFold_keys_nodup d adj [] (by simp)

theorem buildFold_other_keys (db : List Triple) (p dest start : IRI)
    (hfresh : ∀ t ∈ db, t.1 ≠ p ∧ t.2.2 ≠ p) :
    ∀ (l : List (IRI × List (Option IRI))) (a b : ParcelMap),
      (∀ q, q ≠ p → dictLookup a q = dictLookup b q) →
      ∀ q, q ≠ p →
        dictLookup (l.foldl (buildStep (db ++ newParcelTriples p dest start)) a) q
          = dictLookup (l.foldl (buildStep db) b) q := by
  intro l
  induction l with
  | nil => exact fun a b hab => hab
  | cons mp l ih =>
    intro a b hab
    rw [List.foldl_cons, List.foldl_cons]
    apply ih
    intro q hq
    cases hold : triples_get db (some mp.1) (some possPred) none with
    | cons t rest =>
      have htdb : t ∈ db := by
        have ht : t ∈ triples_get db (some mp.1) (some possPred) none := by
          rw [hold]
          exact List.mem_cons_self _ _
        rw [triples_get] at ht
        exact (List.mem_filter.mp ht).1
      have htp : t.2.2 ≠ p := (hfresh t htdb).2
      have hplus : triples_get (db ++ newParcelTriples p dest start) (some mp.1)
          (some possPred) none
          = t :: (rest ++ (if mp.1 = start then [(start, possPred, p)] else [])) := by
        rw [triples_get_append, new_poss_matches, hold]
        rfl
      have hdest : triples_get (db ++ newParcelTriples p dest start) (some t.2.2)
          (some destPred) none = triples_get db (some t.2.2) (some destPred) none := by
        rw [triples_get_append, new_dest_matches, if_neg htp, List.append_nil]
      rcases buildStep_cases (db ++ newParcelTriples p dest start) a mp with
        ⟨hnil, _⟩ | ⟨t', rest', hg', he'⟩
      · rw [hplus] at hnil
        cases hnil
      · rw [hplus] at hg'
        injection hg' with h1 _
        subst h1
        rw [hdest] at he'
        rcases buildStep_cases db b mp with ⟨hnil2, _⟩ | ⟨t2, rest2, hg2, he2⟩
        · rw [hold] at hnil2
          cases hnil2
        · rw [hold] at hg2
          injection hg2 with h2 _
          subst h2
          rw [he', he2]
          by_cases hqt : q = t.2.2
          · rw [hqt, dictLookup_dictInsert_self, dictLookup_dictInsert_self]
          · rw [dictLookup_dictInsert_other _ _ _ _ hqt, dictLookup_dictInsert_other _ _ _ _ hqt]
            exact hab q hq
    | nil =>
      have hstepB : buildStep db b mp = b := by
        rcases buildStep_cases db b mp with ⟨_, he⟩ | ⟨t2, rest2, hg2, _⟩
        · exact he
        · rw [hold] at hg2
          cases hg2
      by_cases hms : mp.1 = start
      · have hplus : triples_get (db ++ newParcelTriples p dest start) (some mp.1)
            (some possPred) none = [(start, possPred, p)] := by
          rw [triples_get_append, new_poss_matches, hold, if_pos hms]
          rfl
        rcases buildStep_cases (db ++ newParcelTriples p dest start) a mp with
          ⟨hnil, _⟩ | ⟨t', rest', hg', he'⟩
        · rw [hplus] at hnil
          cases hnil
        · rw [hplus] at hg'
          injection hg' with h1 _
          subst h1
          rw [hstepB, he', dictLookup_dictInsert_other _ _ _ _ hq]
          exact hab q hq
      · have hstepA : buildStep (db ++ newParcelTriples p dest start) a mp = a := by
          rcases buildStep_cases (db ++ newParcelTriples p dest start) a mp with
            ⟨_, he⟩ | ⟨t', rest', hg', _⟩
          · exact he
          · rw [triples_get_append, new_poss_matches, hold, if_neg hms] at hg'
            cases hg'
        rw [hstepA, hstepB]
        exact hab q hq

theorem destGet_of_fresh (db : List Triple) (p dest start : IRI)
    (hfresh : ∀ t ∈ db, t.1 ≠ p ∧ t.2.2 ≠ p) :
    triples_get (db ++ newParcelTriples p dest start) (some p) (some destPred) none
      = [(p, destPred, dest)] := by
  have hdb : triples_get db (some p) (some destPred) none = [] := by
    rw [triples_get, List.filter_eq_nil_iff]
    intro t ht
    simp only [matchesOpt, Bool.and_eq_true, Bool.and_true, Bool.true_and,
      decide_eq_true_eq, not_and]
    intro hp
    exact absurd hp.symm (hfresh t ht).1
  rw [triples_get_append, new_dest_matches, if_pos rfl, hdb]
  rfl

theorem buildFold_p_preserve (db : List Triple) (p dest start : IRI)
    (hfresh : ∀ t ∈ db, t.1 ≠ p ∧ t.2.2 ≠ p) :
    ∀ (l : List (IRI × List (Option IRI))) (a : ParcelMap),
      dictLookup a p = some ⟨start, some dest⟩ →
      dictLookup (l.foldl (buildStep (db ++ newParcelTriples p dest start)) a) p
        = some ⟨start, some dest⟩ := by
  intro l
  induction l with
  | nil => exact fun a h => h
  | cons mp l ih =>
    intro a h
    rw [List.foldl_cons]
    apply ih
    cases hold : triples_get db (some mp.1) (some possPred) none with
    | cons t rest =>
      have htdb : t ∈ db := by
        have ht : t ∈ triples_get db (some mp.1) (some possPred) none := by
          rw [hold]
          exact List.mem_cons_self _ _
        rw [triples_get] at ht
        exact (List.mem_filter.mp ht).1
      have htp : t.2.2 ≠ p := (hfresh t htdb).2
      have hplus : triples_get (db ++ newParcelTriples p dest start) (some mp.1)
          (some possPred) none
          = t :: (rest ++ (if mp.1 = start then [(start, possPred, p)] else [])) := by
        rw [triples_get_append, new_poss_matches, hold]
        rfl
      rcases buildStep_cases (db ++ newParcelTriples p dest start) a mp with
        ⟨hnil, _⟩ | ⟨t', rest', hg', he'⟩
      · rw [hplus] at hnil
        cases hnil
      · rw [hplus] at hg'
        injection hg' with h1 _
        subst h1
        rw [he', dictLookup_dictInsert_other _ _ _ _ (fun he => htp he.symm)]
        exact h
    | nil =>
      by_cases hms : mp.1 = start
      · have hplus : triples_get (db ++ newParcelTriples p dest start) (some mp.1)
            (some possPred) none = [(start, possPred, p)] := by
          rw [triples_get_append, new_poss_matches, hold, if_pos hms]
          rfl
        rcases buildStep_cases (db ++ newParcelTriples p dest start) a mp with
          ⟨hnil, _⟩ | ⟨t', rest', hg', he'⟩
        · rw [hplus] at hnil
          cases hnil
        · rw [hplus] at hg'
          injection hg' with h1 _
          subst h1
          rw [destGet_of_fresh db p dest start hfresh] at he'
          simp only [List.head?_cons] at he'
          rw [he', hms, dictLookup_dictInsert_self]
          rfl
      · have hstepA : buildStep (db ++ newParcelTriples p dest start) a mp = a := by
          rcases buildStep_cases (db ++ newParcelTriples p dest start) a mp with
            ⟨_, he⟩ | ⟨t', rest', hg', _⟩
          · exact he
          · rw [triples_get_append, new_poss_matches, hold, if_neg hms] at hg'
            cases hg'
        rw [hstepA]
        exact h

theorem buildFold_p_establish (db : List Triple) (p dest start : IRI)
    (hfresh : ∀ t ∈ db, t.1 ≠ p ∧ t.2.2 ≠ p)
    (hunocc : triples_get db (some start) (some possPred) none = []) :
    ∀ (l : List (IRI × List (Option IRI))) (a : ParcelMap),
      start ∈ l.map Prod.fst →
      dictLookup (l.foldl (buildStep (db ++ newParcelTriples p dest start)) a) p
        = some ⟨start, some dest⟩ := by
  intro l
  induction l with
  | nil =>
    intro a h
    cases h
  | cons mp l ih =>
    intro a hs
    rw [List.foldl_cons]
    by_cases hms : mp.1 = start
    · apply buildFold_p_preserve db p dest start hfresh
      have hold : triples_get db (some mp.1) (some possPred) none = [] := by
        rw [hms]
        exact hunocc
      have hplus : triples_get (db ++ newParcelTriples p dest start) (some mp.1)
          (some possPred) none = [(start, possPred, p)] := by
        rw [triples_get_append, new_poss_matches, hold, if_pos hms]
        rfl
      rcases buildStep_cases (db ++ newParcelTriples p dest start) a mp with
        ⟨hnil, _⟩ | ⟨t', rest', hg', he'⟩
      · rw [hplus] at hnil
        cases hnil
      · rw [hplus] at hg'
        injection hg' with h1 _
        subst h1
        rw [destGet_of_fresh db p dest start hfresh] at he'
        simp only [List.head?_cons] at he'
        rw [he', hms, dictLookup_dictInsert_self]
        rfl
    · apply ih
      rcases List.mem_map.mp hs with ⟨y, hy, hye⟩
      rcases List.mem_cons.mp hy with he | ht
      · exact absurd (he ▸ hye) hms
      · exact List.mem_map.mpr ⟨y, ht, hye⟩

/-- C6 (amended): provided the minted identifier `parcel{counter+1}` is not
mentioned by any stored fact (no counter collision — a documented limitation),
the start module is a module of the model and currently unoccupied, the
destination differs from the start (else arrival cleanup deletes the parcel at
once), and the pre-call store is clean of arrived parcels, `add_parcel`
followed by `sync()` yields exactly one new parcel: the new map holds the
minted identifier at position `start` with destination `dest`, every other
identifier is mapped exactly as before, the minted identifier was absent from
the pre-call map, and the counter is incremented by one. -/
theorem add_parcel_sync_fresh (failSet : List IRI) (db : List Triple) (adj : Adj)
    (counter : Nat) (destination start : IRI)
    (hstart : start ∈ adjModules adj)
    (hfresh : ∀ t ∈ db, t.1 ≠ parcel_iri_of (counter + 1) ∧ t.2.2 ≠ parcel_iri_of (counter + 1))
    (hunocc : triples_get db (some start) (some possPred) none = [])
    (hne : destination ≠ start)
    (hclean : ∀ x ∈ buildParcels db adj, arrived x.2 = false) :
    add_parcel failSet db adj counter destination start
      = (db ++ newParcelTriples (parcel_iri_of (counter + 1)) destination start,
         buildParcels (db ++ newParcelTriples (parcel_iri_of (counter + 1)) destination start) adj,
         counter + 1) ∧
    dictLookup (add_parcel failSet db adj counter destination start).2.1
      (parcel_iri_of (counter + 1)) = some ⟨start, some destination⟩ ∧
    (∀ q, q ≠ parcel_iri_of (counter + 1) →
      dictLookup (add_parcel failSet db adj counter destination start).2.1 q
        = dictLookup (buildParcels db adj) q) ∧
    dictLookup (buildParcels db adj) (parcel_iri_of (counter + 1)) = none ∧
    get_parcels failSet (add_parcel failSet db adj counter destination start).1 adj
      = ((add_parcel failSet db adj counter destination start).1,
         (add_parcel failSet db adj counter destination start).2.1) := by
  have hlp : dictLookup (buildParcels
      (db ++ newParcelTriples (parcel_iri_of (counter + 1)) destination start) adj)
      (parcel_iri_of (counter + 1)) = some ⟨start, some destination⟩ := by
    rw [buildParcels]
    exact buildFold_p_establish db _ destination start hfresh hunocc adj [] hstart
  have hlq : ∀ q, q ≠ parcel_iri_of (counter + 1) →
      dictLookup (buildParcels
        (db ++ newParcelTriples (parcel_iri_of (counter + 1)) destination start) adj) q
        = dictLookup (buildParcels db adj) q := by
    intro q hq
    rw [buildParcels, buildParcels]
    exact buildFold_other_keys db _ destination start hfresh adj [] []
      (fun _ _ => rfl) q hq
  have hlpn : dictLookup (buildParcels db adj) (parcel_iri_of (counter + 1)) = none := by
    cases hl : dictLookup (buildParcels db adj) (parcel_iri_of (counter + 1)) with
    | none => rfl
    | some i =>
      exfalso
      have hm := (mem_iff_dictLookup (buildParcels_keys_nodup db adj) _ i).mpr hl
      rw [buildParcels] at hm
      rcases buildFold_provenance db adj [] _ hm with h0 | ⟨t, ht, hte⟩
      · cases h0
      · exact (hfresh t ht).2 hte
  have hall : ∀ x ∈ buildParcels
      (db ++ newParcelTriples (parcel_iri_of (counter + 1)) destination start) adj,
      arrived x.2 = false := by
    intro x hx
    have hlx : dictLookup (buildParcels
        (db ++ newParcelTriples (parcel_iri_of (counter + 1)) destination start) adj)
        x.1 = some x.2 :=
      (mem_iff_dictLookup (buildParcels_keys_nodup _ adj) x.1 x.2).mp hx
    by_cases hxp : x.1 = parcel_iri_of (counter + 1)
    · rw [hxp, hlp] at hlx
      injection hlx with h2
      rw [← h2]
      simp only [arrived, decide_eq_false_iff_not, Option.some.injEq]
      exact fun he => hne he.symm
    · rw [hlq x.1 hxp] at hlx
      have hm := (mem_iff_dictLookup (buildParcels_keys_nodup db adj) x.1 x.2).mpr hlx
      exact hclean (x.1, x.2) hm
  have htd : ((buildParcels
      (db ++ newParcelTriples (parcel_iri_of (counter + 1)) destination start) adj).filter
      fun x => arrived x.2) = [] := by
    rw [List.filter_eq_nil_iff]
    intro x hx
    rw [hall x hx]
    simp
  have hsync : get_parcels failSet
      (db ++ newParcelTriples (parcel_iri_of (counter + 1)) destination start) adj
      = (db ++ newParcelTriples (parcel_iri_of (counter + 1)) destination start,
         buildParcels (db ++ newParcelTriples (parcel_iri_of (counter + 1)) destination start) adj) := by
    simp only [get_parcels, htd, List.map_nil, List.foldl_nil]
  have hadd : add_parcel failSet db adj counter destination start
      = (db ++ newParcelTriples (parcel_iri_of (counter + 1)) destination start,
         buildParcels (db ++ newParcelTriples (parcel_iri_of (counter + 1)) destination start) adj,
         counter + 1) := by
    simp only [add_parcel, triples_add, hsync]
  refine ⟨hadd, ?_, ?_, hlpn, ?_⟩
  · rw [hadd]
    exact hlp
  · intro q hq
    rw [hadd]
    exact hlq q hq
  · rw [hadd]
    exact hsync

theorem add_parcel_sync_fresh_witness :
    dictLookup (add_parcel [] []
      [("M1", [none, none, none, none]), ("M2", [none, none, none, none])]
      0 "M2" "M1").2.1 (parcel_iri_of 1) = some ⟨"M1", some "M2"⟩ :=
  (add_parcel_sync_fresh [] []
    [("M1", [none, none, none, none]), ("M2", [none, none, none, none])]
    0 "M2" "M1" (by decide) (by decide) (by decide) (by decide) (by decide)).2.1

/-- C6 (counterexample): with the destination equal to the start module, the
sync that `add_parcel` triggers deletes the freshly inserted parcel at once
(arrival cleanup), so the returned map holds no new parcel at all — the claim,
which promises exactly one new parcel at position `start` for every
destination/start pair, fails at this input. -/
theorem add_parcel_dest_eq_start_counterexample :
    add_parcel [] [] [("M1", [none, none, none, none])] 0 "M1" "M1" = ([], [], 1) := rfl

theorem PathFrom.length_pos {adj : Adj} {s t : IRI} {p : List IRI}
    (h : PathFrom adj s t p) : 1 ≤ p.length := by
  cases h with
  | single => simp
  | cons u v w q _ _ => simp

theorem PathFrom.head_eq {adj : Adj} {s t : IRI} {p : List IRI}
    (h : PathFrom adj s t p) : p.head? = some s := by
  cases h with
  | single => rfl
  | cons u v w q _ _ => rfl

theorem PathFrom.last_eq {adj : Adj} {s t : IRI} {p : List IRI}
    (h : PathFrom adj s t p) : p.getLast? = some t := by
  induction h with
  | single => rfl
  | cons u v w q he hq ih =>
    rw [List.getLast?_cons, ih]
    cases hq with
    | single => simp
    | cons _ _ _ _ _ _ => simp

theorem PathFrom.snoc_edge {adj : Adj} {s u v : IRI} {p : List IRI}
    (h : PathFrom adj s u p) (he : Edge adj u v) : PathFrom adj s v (p ++ [v]) := by
  induction h with
  | single w => exact PathFrom.cons w v v [v] he (PathFrom.single v)
  | cons a b w q hab hq ih => exact PathFrom.cons a b v (q ++ [v]) hab (ih he)

theorem PathFrom.snoc_view {adj : Adj} {s w : IRI} {p : List IRI}
    (h : PathFrom adj s w p) :
    (p = [s] ∧ w = s) ∨
    (∃ p' u, p = p' ++ [w] ∧ PathFrom adj s u p' ∧ Edge adj u w) := by
  induction h with
  | single u => exact Or.inl ⟨rfl, rfl⟩
  | cons u v w q huv hq ih =>
    right
    rcases ih with ⟨hq1, hq2⟩ | ⟨p', u', hq1, hq2, hq3⟩
    · subst hq2
      exact ⟨[u], u, by rw [hq1]; rfl, PathFrom.single u, huv⟩
    · exact ⟨u :: p', u', by rw [hq1]; rfl, PathFrom.cons u v u' p' huv hq2, hq3⟩

theorem PathFrom.visited_closed {adj : Adj} (visited : List IRI)
    (hstep : ∀ z ∈ visited, ∀ v ∈ nbrs adj z, v ∈ visited) :
    ∀ {x w : IRI} {p : List IRI}, PathFrom adj x w p → x ∈ visited → w ∈ visited := by
  intro x w p h
  induction h with
  | single u => exact fun hx => hx
  | cons u v w q huv hq ih => exact fun hu => ih (hstep u hu v huv)

theorem popMin_cons_none (x : Nat × IRI) (xs : List (Nat × IRI)) (hx : popMin xs = none) :
    popMin (x :: xs) = some (x, []) := by
  rw [popMin, hx]

theorem popMin_cons_some (x : Nat × IRI) (xs : List (Nat × IRI)) (m : Nat × IRI)
    (rest : List (Nat × IRI)) (hx : popMin xs = some (m, rest)) :
    popMin (x :: xs) = if pairLtB m x then some (m, x :: rest) else some (x, xs) := by
  rw [popMin, hx]

theorem popMin_eq_none {l : List (Nat × IRI)} (h : popMin l = none) : l = [] := by
  cases l with
  | nil => rfl
  | cons x xs =>
    cases hx : popMin xs with
    | none => rw [popMin_cons_none x xs hx] at h; cases h
    | some mr =>
      obtain ⟨m1, r1⟩ := mr
      rw [popMin_cons_some x xs m1 r1 hx] at h
      by_cases hlt : pairLtB m1 x
      · rw [if_pos hlt] at h; cases h
      · rw [if_neg hlt] at h; cases h

theorem popMin_mem {l : List (Nat × IRI)} {m : Nat × IRI} {rest : List (Nat × IRI)}
    (h : popMin l = some (m, rest)) : m ∈ l := by
  induction l generalizing m rest with
  | nil => cases h
  | cons x xs ih =>
    cases hx : popMin xs with
    | none =>
      rw [popMin_cons_none x xs hx] at h
      injection h with h1
      injection h1 with h2 _
      exact h2 ▸ List.mem_cons_self x xs
    | some mr =>
      obtain ⟨m1, r1⟩ := mr
      rw [popMin_cons_some x xs m1 r1 hx] at h
      by_cases hlt : pairLtB m1 x
      · rw [if_pos hlt] at h
        injection h with h1
        injection h1 with h2 _
        exact h2 ▸ List.mem_cons_of_mem x (ih hx)
      · rw [if_neg hlt] at h
        injection h with h1
        injection h1 with h2 _
        exact h2 ▸ List.mem_cons_self x xs

theorem popMin_min_fst {l : List (Nat × IRI)} {m : Nat × IRI} {rest : List (Nat × IRI)}
    (h : popMin l = some (m, rest)) : ∀ y ∈ l, m.1 ≤ y.1 := by
  induction l generalizing m rest with
  | nil => cases h
  | cons x xs ih =>
    cases hx : popMin xs with
    | none =>
      rw [popMin_cons_none x xs hx] at h
      injection h with h1
      injection h1 with h2 _
      subst h2
      intro y hy
      rcases List.mem_cons.mp hy with he | ht
      · rw [he]
      · rw [popMin_eq_none hx] at ht
        cases ht
    | some mr =>
      obtain ⟨m1, r1⟩ := mr
      rw [popMin_cons_some x xs m1 r1 hx] at h
      have hmin := ih hx
      by_cases hlt : pairLtB m1 x
      · rw [if_pos hlt] at h
        injection h with h1
        injection h1 with h2 _
        rw [← h2]
        intro y hy
        rcases List.mem_cons.mp hy with he | ht
        · rw [he]
          rcases Bool.or_eq_true_iff.mp hlt with h' | h'
          · exact Nat.le_of_lt (by simpa using h')
          · have h2' : m1.1 = x.1 ∧ m1.2 < x.2 := by simpa using h'
            exact Nat.le_of_eq h2'.1
        · exact hmin y ht
      · rw [if_neg hlt] at h
        injection h with h1
        injection h1 with h2 _
        rw [← h2]
        have hxm : x.1 ≤ m1.1 := by
          rw [pairLtB] at hlt
          rcases Nat.lt_or_ge m1.1 x.1 with hl | hg
          · exact absurd (Bool.or_eq_true_iff.mpr (Or.inl (decide_eq_true hl))) hlt
          · exact hg
        intro y hy
        rcases List.mem_cons.mp hy with he | ht
        · rw [he]
        · exact Nat.le_trans hxm (hmin y ht)

theorem popMin_rest_sub {l : List (Nat × IRI)} {m : Nat × IRI} {rest : List (Nat × IRI)}
    (h : popMin l = some (m, rest)) : ∀ y ∈ rest, y ∈ l := by
  induction l generalizing m rest with
  | nil => cases h
  | cons x xs ih =>
    cases hx : popMin xs with
    | none =>
      rw [popMin_cons_none x xs hx] at h
      injection h with h1
      injection h1 with _ h3
      subst h3
      intro y hy
      cases hy
    | some mr =>
      obtain ⟨m1, r1⟩ := mr
      rw [popMin_cons_some x xs m1 r1 hx] at h
      by_cases hlt : pairLtB m1 x
      · rw [if_pos hlt] at h
        injection h with h1
        injection h1 with _ h3
        subst h3
        intro y hy
        rcases List.mem_cons.mp hy with he | ht
        · exact he ▸ List.mem_cons_self x xs
        · exact List.mem_cons_of_mem x (ih hx y ht)
      · rw [if_neg hlt] at h
        injection h with h1
        injection h1 with _ h3
        subst h3
        exact fun y hy => List.mem_cons_of_mem x hy

theorem popMin_keep {l : List (Nat × IRI)} {m : Nat × IRI} {rest : List (Nat × IRI)}
    (h : popMin l = some (m, rest)) : ∀ y ∈ l, y ≠ m → y ∈ rest := by
  induction l generalizing m rest with
  | nil => cases h
  | cons x xs ih =>
    cases hx : popMin xs with
    | none =>
      rw [popMin_cons_none x xs hx] at h
      injection h with h1
      injection h1 with h2 h3
      subst h3
      intro y hy hym
      rcases List.mem_cons.mp hy with he | ht
      · exact absurd (he.trans h2) hym
      · rw [popMin_eq_none hx] at ht
        cases ht
    | some mr =>
      obtain ⟨m1, r1⟩ := mr
      rw [popMin_cons_some x xs m1 r1 hx] at h
      by_cases hlt : pairLtB m1 x
      · rw [if_pos hlt] at h
        injection h with h1
        injection h1 with h2 h3
        subst h3
        intro y hy hym
        rcases List.mem_cons.mp hy with he | ht
        · exact he ▸ List.mem_cons_self x r1
        · exact List.mem_cons_of_mem x (ih hx y ht (h2 ▸ hym))
      · rw [if_neg hlt] at h
        injection h with h1
        injection h1 with h2 h3
        subst h3
        intro y hy hym
        rcases List.mem_cons.mp hy with he | ht
        · exact absurd (he.trans h2) hym
        · exact ht

theorem popMin_length {l : List (Nat × IRI)} {m : Nat × IRI} {rest : List (Nat × IRI)}
    (h : popMin l = some (m, rest)) : rest.length + 1 = l.length := by
  induction l generalizing m rest with
  | nil => cases h
  | cons x xs ih =>
    cases hx : popMin xs with
    | none =>
      rw [popMin_cons_none x xs hx] at h
      injection h with h1
      injection h1 with _ h3
      subst h3
      rw [popMin_eq_none hx]
      rfl
    | some mr =>
      obtain ⟨m1, r1⟩ := mr
      rw [popMin_cons_some x xs m1 r1 hx] at h
      by_cases hlt : pairLtB m1 x
      · rw [if_pos hlt] at h
        injection h with h1
        injection h1 with _ h3
        subst h3
        have := ih hx
        simp only [List.length_cons] at *
        omega
      · rw [if_neg hlt] at h
        injection h with h1
        injection h1 with _ h3
        subst h3
        rfl

theorem closed_nbrs (adj : Adj) (hc : closedAdjB adj = true) (u v : IRI)
    (hv : v ∈ nbrs adj u) : v ∈ adjModules adj := by
  rw [nbrs] at hv
  cases hl : adjLookup adj u with
  | none =>
    rw [hl] at hv
    simp at hv
  | some cs =>
    rw [hl] at hv
    simp only [Option.getD_some] at hv
    have hsome : some v ∈ cs := mem_filterMap_id.mp hv
    rw [adjLookup] at hl
    cases hf : adj.find? fun p => p.1 = u with
    | none =>
      rw [hf] at hl
      cases hl
    | some mc =>
      rw [hf] at hl
      have hl2 : mc.2 = cs := by
        simpa using hl
      have hsome2 : some v ∈ mc.2 := by
        rw [hl2]
        exact hsome
      have hmc : mc ∈ adj := List.mem_of_find?_eq_some hf
      rw [closedAdjB, List.all_eq_true] at hc
      have h2 := List.all_eq_true.mp (hc mc hmc) (some v) hsome2
      simpa using h2

theorem adjLookup_self (adj : Adj) (hnd : (adjModules adj).Nodup) :
    ∀ mc ∈ adj, adjLookup adj mc.1 = some mc.2 := by
  induction adj with
  | nil =>
    intro mc h
    cases h
  | cons hd tl ih =>
    rw [adjModules, List.map_cons, List.nodup_cons] at hnd
    intro mc hmc
    rcases List.mem_cons.mp hmc with he | ht
    · subst he
      rw [adjLookup, List.find?_cons_of_pos _ (by simp)]
      rfl
    · have hne : hd.1 ≠ mc.1 := by
        intro hh
        exact hnd.1 (hh ▸ List.mem_map.mpr ⟨mc, ht, rfl⟩)
      rw [adjLookup, List.find?_cons_of_neg _ (by simpa using hne)]
      exact ih hnd.2 mc ht

theorem sum_map_one_add {α : Type} (l : List α) (f : α → Nat) :
    (l.map fun x => 1 + f x).sum = l.length + (l.map f).sum := by
  induction l with
  | nil => rfl
  | cons a l ih =>
    simp only [List.map_cons, List.sum_cons, List.length_cons, ih]
    omega

theorem filter_sum_split (w : IRI → Nat) (visited : List IRI) (u : IRI) (hnv : u ∉ visited) :
    ∀ (l : List IRI), l.Nodup → u ∈ l →
      ((l.filter fun m => decide (m ∉ visited)).map w).sum
        = w u + ((l.filter fun m => decide (m ∉ u :: visited)).map w).sum := by
  intro l
  induction l with
  | nil =>
    intro _ h
    cases h
  | cons a l ih =>
    intro hnd hu
    rw [List.nodup_cons] at hnd
    rcases List.mem_cons.mp hu with he | ht
    · subst he
      rw [List.filter_cons_of_pos (by simpa using hnv)]
      rw [List.filter_cons_of_neg (by simp)]
      rw [List.map_cons, List.sum_cons]
      have hfe : l.filter (fun m => decide (m ∉ visited))
          = l.filter (fun m => decide (m ∉ u :: visited)) := by
        apply List.filter_congr
        intro m hm
        have hmu : m ≠ u := fun hh => hnd.1 (hh ▸ hm)
        simp [List.mem_cons, hmu]
      rw [hfe]
    · have hau : a ≠ u := fun hh => hnd.1 (hh ▸ ht)
      by_cases hav : a ∈ visited
      · rw [List.filter_cons_of_neg (by simp [hav]),
          List.filter_cons_of_neg (by simp [hav])]
        exact ih hnd.2 ht
      · rw [List.filter_cons_of_pos (by simpa using hav),
          List.filter_cons_of_pos (by simp [List.mem_cons, hau, hav])]
        rw [List.map_cons, List.sum_cons, List.map_cons, List.sum_cons, ih hnd.2 ht]
        omega

theorem sumWeights_insert (adj : Adj) (visited : List IRI) (u : IRI)
    (hnd : (adjModules adj).Nodup) (hu : u ∈ adjModules adj) (hnv : u ∉ visited) :
    sumWeights adj visited = 1 + (nbrs adj u).length + sumWeights adj (u :: visited) := by
  rw [sumWeights, sumWeights]
  have h := filter_sum_split (fun m => 1 + (nbrs adj m).length) visited u hnv
    (adjModules adj) hnd hu
  rw [h]

theorem measure_init_lt (adj : Adj) (s : IRI) (hnd : (adjModules adj).Nodup) :
    dijMeasure adj (initState s) < dijFuel adj := by
  have h0 : (adjModules adj).filter (fun m => decide (m ∉ ([] : List IRI)))
      = adjModules adj := by
    apply List.filter_eq_self.mpr
    intro a _
    simp
  have h1 : sumWeights adj [] = ((adjModules adj).map fun m => 1 + (nbrs adj m).length).sum := by
    rw [sumWeights, h0]
  have h2 : ((adjModules adj).map fun m => 1 + (nbrs adj m).length).sum
      = (adj.map fun mc => 1 + (nbrs adj mc.1).length).sum := by
    rw [adjModules, List.map_map]
    rfl
  have h3 : (adj.map fun mc => 1 + (nbrs adj mc.1).length).sum
      = adj.length + (adj.map fun mc => (nbrs adj mc.1).length).sum :=
    sum_map_one_add adj _
  have h4 : (adj.map fun mc => (nbrs adj mc.1).length).sum
      ≤ (adj.map fun mc => mc.2.length).sum := by
    apply List.sum_le_sum
    intro mc hmc
    rw [nbrs, adjLookup_self adj hnd mc hmc]
    simp only [Option.getD_some]
    exact List.length_filterMap_le _ _
  rw [dijMeasure]
  have h5 : (initState s).pq.length = 1 := rfl
  have h6 : (initState s).visited = ([] : List IRI) := rfl
  rw [h5, h6, dijFuel, h1, h2, h3]
  omega

theorem relaxOne_update_inv (adj : Adj) (s u v : IRI) (d : Nat) (st : DijState)
    (hInv : Inv adj s st)
    (hu_vis : u ∈ st.visited) (hud : st.dist u = some d)
    (hv_nvis : v ∉ st.visited) (hv_mod : v ∈ adjModules adj) (hv_nb : v ∈ nbrs adj u)
    (hbetter : ∀ e, st.dist v = some e → d + 1 < e) :
    Inv adj s { st with
      dist := fun w => if w = v then some (d + 1) else st.dist w,
      prev := fun w => if w = v then some u else st.prev w,
      pq := st.pq ++ [(d + 1, v)] } := by
  have huv : u ≠ v := fun he => hv_nvis (he ▸ hu_vis)
  have hsv : s ≠ v := by
    intro he
    have := hbetter 0 (he ▸ hInv.distS)
    omega
  refine ⟨?_, ?_, ?_, ?_, ?_, ?_, ?_, ?_, ?_, ?_⟩
  · show (if s = v then some (d + 1) else st.dist s) = some 0
    rw [if_neg hsv]
    exact hInv.distS
  · intro e he
    rcases List.mem_append.mp he with h1 | h1
    · exact hInv.pqMod e h1
    · rw [List.mem_singleton] at h1
      rw [h1]
      exact hv_mod
  · intro e he
    rcases List.mem_append.mp he with h1 | h1
    · obtain ⟨k, hk, hke⟩ := hInv.pqDist e h1
      by_cases hev : e.2 = v
      · refine ⟨d + 1, ?_, ?_⟩
        · show (if e.2 = v then some (d + 1) else st.dist e.2) = some (d + 1)
          rw [if_pos hev]
        · rw [hev] at hk
          have := hbetter k hk
          omega
      · refine ⟨k, ?_, hke⟩
        show (if e.2 = v then some (d + 1) else st.dist e.2) = some k
        rw [if_neg hev]
        exact hk
    · rw [List.mem_singleton] at h1
      subst h1
      refine ⟨d + 1, ?_, Nat.le_refl _⟩
      show (if v = v then some (d + 1) else st.dist v) = some (d + 1)
      rw [if_pos rfl]
  · intro w k hw hk
    by_cases hwv : w = v
    · subst hwv
      have hk' : (if w = w then some (d + 1) else st.dist w) = some k := hk
      rw [if_pos rfl] at hk'
      injection hk' with hk2
      rw [← hk2]
      exact List.mem_append_right _ (List.mem_singleton.mpr rfl)
    · have hk' : (if w = v then some (d + 1) else st.dist w) = some k := hk
      rw [if_neg hwv] at hk'
      exact List.mem_append_left _ (hInv.unvisPq w k hw hk')
  · intro w k hk
    by_cases hwv : w = v
    · subst hwv
      have hk' : (if w = w then some (d + 1) else st.dist w) = some k := hk
      rw [if_pos rfl] at hk'
      injection hk' with hk2
      obtain ⟨p, hp, hl⟩ := hInv.sound u d hud
      refine ⟨p ++ [w], hp.snoc_edge hv_nb, ?_⟩
      rw [List.length_append, hl, List.length_singleton]
      omega
    · have hk' : (if w = v then some (d + 1) else st.dist w) = some k := hk
      rw [if_neg hwv] at hk'
      exact hInv.sound w k hk'
  · exact hInv.visMod
  · intro z hz
    have hzv : z ≠ v := fun he => hv_nvis (he ▸ hz)
    obtain ⟨k, hk⟩ := hInv.visDist z hz
    refine ⟨k, ?_⟩
    show (if z = v then some (d + 1) else st.dist z) = some k
    rw [if_neg hzv]
    exact hk
  · intro z hz k hk p hp
    have hzv : z ≠ v := fun he => hv_nvis (he ▸ hz)
    have hk' : (if z = v then some (d + 1) else st.dist z) = some k := hk
    rw [if_neg hzv] at hk'
    exact hInv.visMin z hz k hk' p hp
  · intro w r hw
    by_cases hwv : w = v
    · subst hwv
      have hw' : (if w = w then some u else st.prev w) = some r := hw
      rw [if_pos rfl] at hw'
      injection hw' with hw2
      refine ⟨hw2 ▸ hv_nb, ?_⟩
      intro kv hkv
      have hkv' : (if w = w then some (d + 1) else st.dist w) = some kv := hkv
      rw [if_pos rfl] at hkv'
      injection hkv' with hkv2
      refine ⟨d, ?_, by omega⟩
      show (if r = w then some (d + 1) else st.dist r) = some d
      rw [← hw2, if_neg huv]
      exact hud
    · have hw' : (if w = v then some u else st.prev w) = some r := hw
      rw [if_neg hwv] at hw'
      obtain ⟨hedge, hdec⟩ := hInv.prevEdge w r hw'
      refine ⟨hedge, ?_⟩
      intro kv hkv
      have hkv' : (if w = v then some (d + 1) else st.dist w) = some kv := hkv
      rw [if_neg hwv] at hkv'
      obtain ⟨kr, hkr, hlt⟩ := hdec kv hkv'
      by_cases hrv : r = v
      · refine ⟨d + 1, ?_, ?_⟩
        · show (if r = v then some (d + 1) else st.dist r) = some (d + 1)
          rw [if_pos hrv]
        · have := hbetter kr (hrv ▸ hkr)
          omega
      · refine ⟨kr, ?_, hlt⟩
        show (if r = v then some (d + 1) else st.dist r) = some kr
        rw [if_neg hrv]
        exact hkr
  · intro w k hk hp
    by_cases hwv : w = v
    · subst hwv
      have hp' : (if w = w then some u else st.prev w) = none := hp
      rw [if_pos rfl] at hp'
      cases hp'
    · have hk' : (if w = v then some (d + 1) else st.dist w) = some k := hk
      rw [if_neg hwv] at hk'
      have hp' : (if w = v then some u else st.prev w) = none := hp
      rw [if_neg hwv] at hp'
      exact hInv.prevNone w k hk' hp'

theorem relaxOne_visited (modules : List IRI) (d : Nat) (u : IRI) (st : DijState) (v : IRI)
    (h : v ∈ st.visited) : relaxOne modules d u st v = Except.ok st := by
  simp [relaxOne, h]

theorem relaxOne_skip (modules : List IRI) (d : Nat) (u : IRI) (st : DijState) (v : IRI)
    (hnv : v ∉ st.visited) (hm : v ∈ modules) (e : Nat) (he : st.dist v = some e)
    (hle : ¬ d + 1 < e) : relaxOne modules d u st v = Except.ok st := by
  simp [relaxOne, hnv, hm, he, hle]

theorem relaxOne_update (modules : List IRI) (d : Nat) (u : IRI) (st : DijState) (v : IRI)
    (hnv : v ∉ st.visited) (hm : v ∈ modules)
    (hbetter : ∀ e, st.dist v = some e → d + 1 < e) :
    relaxOne modules d u st v = Except.ok { st with
      dist := fun w => if w = v then some (d + 1) else st.dist w,
      prev := fun w => if w = v then some u else st.prev w,
      pq := st.pq ++ [(d + 1, v)] } := by
  cases hdv : st.dist v with
  | none => simp [relaxOne, hnv, hm, hdv]
  | some e =>
    have hlt := hbetter e hdv
    simp [relaxOne, hnv, hm, hdv, hlt]

theorem relaxAll_ok (adj : Adj) (s u : IRI) (d : Nat)
    (hclosed : closedAdjB adj = true) :
    ∀ (l : List IRI) (st : DijState),
      (∀ v ∈ l, v ∈ nbrs adj u) →
      u ∈ st.visited → st.dist u = some d →
      Inv adj s st →
      ∃ st2, l.foldlM (relaxOne (adjModules adj) d u) st = Except.ok st2 ∧
        Inv adj s st2 ∧
        st2.visited = st.visited ∧
        (∀ z, z ∈ st.visited → st2.dist z = st.dist z) ∧
        st2.pq.length ≤ st.pq.length + l.length ∧
        (∀ w k, st.dist w = some k → ∃ k2, st2.dist w = some k2 ∧ k2 ≤ k) ∧
        (∀ v ∈ l, v ∉ st.visited → ∃ k, st2.dist v = some k ∧ k ≤ d + 1) := by
  intro l
  induction l with
  | nil =>
    intro st _ hu hud hInv
    refine ⟨st, rfl, hInv, rfl, fun z _ => rfl, by simp, fun w k h => ⟨k, h, Nat.le_refl _⟩, ?_⟩
    intro v hv
    cases hv
  | cons v l ih =>
    intro st hnb hu hud hInv
    have hvnb : v ∈ nbrs adj u := hnb v (List.mem_cons_self _ _)
    have hnb' : ∀ w ∈ l, w ∈ nbrs adj u := fun w hw => hnb w (List.mem_cons_of_mem _ hw)
    rw [List.foldlM_cons]
    by_cases hvis : v ∈ st.visited
    · rw [relaxOne_visited _ _ _ _ _ hvis]
      obtain ⟨st2, hfold, hI, hvis2, hfroz, hpq, hmono, hproc⟩ := ih st hnb' hu hud hInv
      refine ⟨st2, hfold, hI, hvis2, hfroz, by simp only [List.length_cons]; omega, hmono, ?_⟩
      intro w hw hwn
      rcases List.mem_cons.mp hw with he | ht
      · exact absurd (he ▸ hvis) hwn
      · exact hproc w ht hwn
    · have hvmod : v ∈ adjModules adj := closed_nbrs adj hclosed u v hvnb
      have hsplit : (∀ e, st.dist v = some e → d + 1 < e) ∨
          (∃ e, st.dist v = some e ∧ ¬ d + 1 < e) := by
        cases hdv : st.dist v with
        | none =>
          left
          intro e he
          cases he
        | some e =>
          by_cases hlt : d + 1 < e
          · left
            intro e' he'
            injection he' with he2
            exact he2 ▸ hlt
          · exact Or.inr ⟨e, rfl, hlt⟩
      rcases hsplit with hbet | ⟨e, hdv, hnlt⟩
      · have hupd := relaxOne_update (adjModules adj) d u st v hvis hvmod hbet
        have hInv' := relaxOne_update_inv adj s u v d st hInv hu hud hvis hvmod hvnb hbet
        have huv : u ≠ v := fun he => hvis (he ▸ hu)
        obtain ⟨st2, hfold, hI, hvis2, hfroz, hpq, hmono, hproc⟩ :=
          ih { st with
              dist := fun w => if w = v then some (d + 1) else st.dist w,
              prev := fun w => if w = v then some u else st.prev w,
              pq := st.pq ++ [(d + 1, v)] } hnb'
            (show u ∈ st.visited from hu)
            (show (if u = v then some (d + 1) else st.dist u) = some d by
              rw [if_neg huv]
              exact hud)
            hInv'
        rw [hupd]
        refine ⟨st2, hfold, hI, hvis2, ?_, ?_, ?_, ?_⟩
        · intro z hz
          rw [hfroz z hz]
          show (if z = v then some (d + 1) else st.dist z) = st.dist z
          rw [if_neg (fun (he : z = v) => hvis (he ▸ hz))]
        · have hlen : (st.pq ++ [(d + 1, v)]).length = st.pq.length + 1 := by
            rw [List.length_append, List.length_singleton]
          have hpq' : st2.pq.length ≤ st.pq.length + 1 + l.length := by
            calc st2.pq.length ≤ (st.pq ++ [(d + 1, v)]).length + l.length := hpq
            _ = st.pq.length + 1 + l.length := by rw [hlen]
          simp only [List.length_cons]
          omega
        · intro w k hk
          by_cases hwv : w = v
          · have hltk := hbet k (hwv ▸ hk)
            obtain ⟨k2, hk2, hle2⟩ := hmono w (d + 1)
              (by show (if w = v then some (d + 1) else st.dist w) = some (d + 1)
                  rw [if_pos hwv])
            exact ⟨k2, hk2, by omega⟩
          · obtain ⟨k2, hk2, hle2⟩ := hmono w k
              (by show (if w = v then some (d + 1) else st.dist w) = some k
                  rw [if_neg hwv]
                  exact hk)
            exact ⟨k2, hk2, hle2⟩
        · intro w hw hwn
          rcases List.mem_cons.mp hw with he | ht
          · subst he
            obtain ⟨k2, hk2, hle2⟩ := hmono w (d + 1)
              (by show (if w = w then some (d + 1) else st.dist w) = some (d + 1)
                  rw [if_pos rfl])
            exact ⟨k2, hk2, hle2⟩
          · exact hproc w ht hwn
      · rw [relaxOne_skip _ _ _ _ _ hvis hvmod e hdv hnlt]
        obtain ⟨st2, hfold, hI, hvis2, hfroz, hpq, hmono, hproc⟩ := ih st hnb' hu hud hInv
        refine ⟨st2, hfold, hI, hvis2, hfroz, by simp only [List.length_cons]; omega, hmono, ?_⟩
        intro w hw hwn
        rcases List.mem_cons.mp hw with he | ht
        · subst he
          obtain ⟨k2, hk2, hle2⟩ := hmono w e hdv
          exact ⟨k2, hk2, by omega⟩
        · exact hproc w ht hwn

theorem frontier_entry (adj : Adj) (s : IRI) (st : DijState)
    (hInv : Inv adj s st) (hRel : Relaxed adj st) :
    ∀ (n : Nat) (w : IRI) (p : List IRI), p.length ≤ n → PathFrom adj s w p →
      w ∉ st.visited → ∃ k x, (k, x) ∈ st.pq ∧ k + 1 ≤ p.length := by
  intro n
  induction n with
  | zero =>
    intro w p hl hp _
    have := hp.length_pos
    omega
  | succ n ih =>
    intro w p hl hp hw
    rcases hp.snoc_view with ⟨hp1, hp2⟩ | ⟨p', u', hp1, hp2, hp3⟩
    · subst hp2
      refine ⟨0, w, hInv.unvisPq w 0 hw hInv.distS, ?_⟩
      rw [hp1]
      simp
    · by_cases hu' : u' ∈ st.visited
      · obtain ⟨k, kz, hkv, hkz, hkk⟩ := hRel u' hu' w hp3 hw
        have hmin := hInv.visMin u' hu' kz hkz p' hp2
        refine ⟨k, w, hInv.unvisPq w k hw hkv, ?_⟩
        rw [hp1, List.length_append, List.length_singleton]
        omega
      · have hlen : p'.length ≤ n := by
          rw [hp1, List.length_append, List.length_singleton] at hl
          omega
        obtain ⟨k, x, hkx, hkl⟩ := ih u' p' hlen hp2 hu'
        refine ⟨k, x, hkx, ?_⟩
        rw [hp1, List.length_append, List.length_singleton]
        omega

theorem exhausted_final (adj : Adj) (s target : IRI) (st : DijState)
    (hInv : Inv adj s st) (hRel : Relaxed adj st) (hpq : st.pq = [])
    (htv : target ∉ st.visited) :
    st.dist target = none ∧ ¬ Reachable adj s target := by
  have hsvis : s ∈ st.visited := by
    by_contra hs
    have h := hInv.unvisPq s 0 hs hInv.distS
    rw [hpq] at h
    cases h
  have hstep : ∀ z ∈ st.visited, ∀ v ∈ nbrs adj z, v ∈ st.visited := by
    intro z hz v hv
    by_contra hnv
    obtain ⟨k, kz, hkv, _, _⟩ := hRel z hz v hv hnv
    have h := hInv.unvisPq v k hnv hkv
    rw [hpq] at h
    cases h
  constructor
  · cases hdt : st.dist target with
    | none => rfl
    | some k =>
      have h := hInv.unvisPq target k htv hdt
      rw [hpq] at h
      cases h
  · rintro ⟨p, hp⟩
    exact htv (PathFrom.visited_closed st.visited hstep hp hsvis)

theorem dijLoop_succ (adj : Adj) (modules : List IRI) (target : IRI) (fuel : Nat)
    (st : DijState) :
    dijLoop adj modules target (fuel + 1) st =
      match popMin st.pq with
      | none => Except.ok st
      | some (du, rest) =>
        if du.2 ∈ st.visited then dijLoop adj modules target fuel { st with pq := rest }
        else
          let s1 : DijState := { st with pq := rest, visited := du.2 :: st.visited }
          if du.2 = target then Except.ok s1
          else
            match (nbrs adj du.2).foldlM (relaxOne modules du.1 du.2) s1 with
            | Except.error e => Except.error e
            | Except.ok s2 => dijLoop adj modules target fuel s2 := rfl

theorem dijLoop_ok (adj : Adj) (s target : IRI)
    (hclosed : closedAdjB adj = true) (hnd : (adjModules adj).Nodup) :
    ∀ (fuel : Nat) (st : DijState),
      Inv adj s st → Relaxed adj st → target ∉ st.visited →
      dijMeasure adj st < fuel →
      ∃ sF, dijLoop adj (adjModules adj) target fuel st = Except.ok sF ∧
        GoodFinal adj s target sF := by
  intro fuel
  induction fuel with
  | zero =>
    intro st _ _ _ hm
    omega
  | succ fuel ih =>
    intro st hInv hRel htv hm
    rw [dijMeasure] at hm
    cases hpop : popMin st.pq with
    | none =>
      rw [dijLoop_succ, hpop]
      have hex := exhausted_final adj s target st hInv hRel (popMin_eq_none hpop) htv
      exact ⟨st, rfl, hInv.sound, hInv.prevEdge, hInv.prevNone, Or.inl hex⟩
    | some mr =>
      obtain ⟨⟨d, u⟩, rest⟩ := mr
      rw [dijLoop_succ, hpop]
      dsimp only
      have hrl : rest.length + 1 = st.pq.length := popMin_length hpop
      by_cases hvis : u ∈ st.visited
      · rw [if_pos hvis]
        apply ih
        · refine ⟨hInv.distS, ?_, ?_, ?_, hInv.sound, hInv.visMod, hInv.visDist,
            hInv.visMin, hInv.prevEdge, hInv.prevNone⟩
          · intro e he
            exact hInv.pqMod e (popMin_rest_sub hpop e he)
          · intro e he
            exact hInv.pqDist e (popMin_rest_sub hpop e he)
          · intro w k hw hk
            have hwu : w ≠ u := fun he => hw (he ▸ hvis)
            have hmem := hInv.unvisPq w k hw hk
            refine popMin_keep hpop (k, w) hmem ?_
            intro hh
            injection hh with _ h2
            exact hwu h2
        · exact hRel
        · exact htv
        · rw [dijMeasure]
          have hsw : sumWeights adj ({ st with pq := rest } : DijState).visited
              = sumWeights adj st.visited := rfl
          rw [hsw]
          have hpl : ({ st with pq := rest } : DijState).pq.length = rest.length := rfl
          rw [hpl]
          omega
      · rw [if_neg hvis]
        have hmem : (d, u) ∈ st.pq := popMin_mem hpop
        have humod : u ∈ adjModules adj := hInv.pqMod (d, u) hmem
        obtain ⟨k, hk, hkd⟩ := hInv.pqDist (d, u) hmem
        have hkpq := hInv.unvisPq u k hvis hk
        have hdk : d ≤ k := popMin_min_fst hpop (k, u) hkpq
        have hdu : st.dist u = some d := by
          have hkd2 : k = d := Nat.le_antisymm hkd hdk
          rw [← hkd2]
          exact hk
        have hminU : ∀ p, PathFrom adj s u p → d + 1 ≤ p.length := by
          intro p hp
          obtain ⟨k', x, hkx, hkl⟩ :=
            frontier_entry adj s st hInv hRel p.length u p (Nat.le_refl _) hp hvis
          have := popMin_min_fst hpop (k', x) hkx
          omega
        have hInv1 : Inv adj s { st with pq := rest, visited := u :: st.visited } := by
          refine ⟨hInv.distS, ?_, ?_, ?_, hInv.sound, ?_, ?_, ?_, hInv.prevEdge, hInv.prevNone⟩
          · intro e he
            exact hInv.pqMod e (popMin_rest_sub hpop e he)
          · intro e he
            exact hInv.pqDist e (popMin_rest_sub hpop e he)
          · intro w k' hw hk'
            have hwu : w ≠ u := fun he => hw (he ▸ List.mem_cons_self u st.visited)
            have hwv : w ∉ st.visited := fun hh => hw (List.mem_cons_of_mem _ hh)
            have hmem' := hInv.unvisPq w k' hwv hk'
            refine popMin_keep hpop (k', w) hmem' ?_
            intro hh
            injection hh with _ h2
            exact hwu h2
          · intro z hz
            rcases List.mem_cons.mp hz with he | ht
            · exact he ▸ humod
            · exact hInv.visMod z ht
          · intro z hz
            rcases List.mem_cons.mp hz with he | ht
            · refine ⟨d, ?_⟩
              show st.dist z = some d
              rw [he]
              exact hdu
            · exact hInv.visDist z ht
          · intro z hz k' hk' p hp
            rcases List.mem_cons.mp hz with he | ht
            · subst he
              have hk2 : st.dist z = some k' := hk'
              rw [hdu] at hk2
              injection hk2 with h2
              rw [← h2]
              exact hminU p hp
            · exact hInv.visMin z ht k' hk' p hp
        by_cases hut : u = target
        · rw [if_pos hut]
          refine ⟨_, rfl, hInv1.sound, hInv1.prevEdge, hInv1.prevNone, Or.inr ⟨d, ?_, ?_⟩⟩
          · show st.dist target = some d
            rw [← hut]
            exact hdu
          · intro p hp
            rw [← hut] at hp
            exact hminU p hp
        · rw [if_neg hut]
          obtain ⟨st2, hfold, hI2, hvis2, hfroz, hpq2, hmono2, hproc2⟩ :=
            relaxAll_ok adj s u d hclosed (nbrs adj u)
              { st with pq := rest, visited := u :: st.visited }
              (fun v hv => hv) (List.mem_cons_self u st.visited)
              (show st.dist u = some d from hdu) hInv1
          rw [hfold]
          have hvis2' : st2.visited = u :: st.visited := hvis2
          have hfrozu : st2.dist u = some d := by
            have h := hfroz u (List.mem_cons_self u st.visited)
            rw [h]
            exact hdu
          apply ih st2 hI2
          · intro z hz v hv hnv
            rw [hvis2'] at hz hnv
            have hnv1 : v ∉ st.visited := fun hh => hnv (List.mem_cons_of_mem _ hh)
            rcases List.mem_cons.mp hz with he | ht
            · subst he
              obtain ⟨kv, hkv, hkvle⟩ := hproc2 v hv (by
                intro hh
                exact hnv hh)
              exact ⟨kv, d, hkv, hfrozu, hkvle⟩
            · obtain ⟨kv, kz, hkv, hkz, hkk⟩ := hRel z ht v hv hnv1
              obtain ⟨k2, hk2, hk2le⟩ := hmono2 v kv (show st.dist v = some kv from hkv)
              refine ⟨k2, kz, hk2, ?_, by omega⟩
              have h := hfroz z (List.mem_cons_of_mem _ ht)
              rw [h]
              exact hkz
          · rw [hvis2']
            intro hh
            rcases List.mem_cons.mp hh with he | ht
            · exact hut he.symm
            · exact htv ht
          · rw [dijMeasure, hvis2']
            have htotal := sumWeights_insert adj st.visited u hnd humod hvis
            have hpq2' : st2.pq.length ≤ rest.length + (nbrs adj u).length := hpq2
            omega

theorem reconstructPath_succ (prev : IRI → Option IRI) (f : Nat) (v : IRI) :
    reconstructPath prev (f + 1) v =
      match prev v with
      | none => some [v]
      | some p => (reconstructPath prev f p).map (· ++ [v]) := rfl

theorem reconstruct_ok (adj : Adj) (s : IRI) (st : DijState)
    (hprevEdge : ∀ v u, st.prev v = some u → Edge adj u v ∧
      (∀ kv, st.dist v = some kv → ∃ ku, st.dist u = some ku ∧ ku < kv))
    (hprevNone : ∀ v k, st.dist v = some k → st.prev v = none → v = s) :
    ∀ (e : Nat) (v : IRI), st.dist v = some e → ∀ f, e + 1 ≤ f →
      ∃ p, reconstructPath st.prev f v = some p ∧ PathFrom adj s v p ∧ p.length ≤ e + 1 := by
  intro e
  induction e using Nat.strong_induction_on with
  | _ e ihe =>
    intro v hv f hf
    cases f with
    | zero => omega
    | succ f =>
      cases hp : st.prev v with
      | none =>
        have hvs : v = s := hprevNone v e hv hp
        subst hvs
        refine ⟨[v], ?_, PathFrom.single v, by simp⟩
        rw [reconstructPath_succ, hp]
      | some r =>
        obtain ⟨hedge, hdec⟩ := hprevEdge v r hp
        obtain ⟨kr, hkr, hlt⟩ := hdec e hv
        obtain ⟨q, hq1, hq2, hq3⟩ := ihe kr hlt r hkr f (by omega)
        refine ⟨q ++ [v], ?_, hq2.snoc_edge hedge, ?_⟩
        · rw [reconstructPath_succ, hp]
          show (reconstructPath st.prev f r).map (· ++ [v]) = some (q ++ [v])
          rw [hq1]
          rfl
        · rw [List.length_append, List.length_singleton]
          omega

theorem initState_inv (adj : Adj) (s : IRI) (hs : s ∈ adjModules adj) :
    Inv adj s (initState s) := by
  refine ⟨?_, ?_, ?_, ?_, ?_, ?_, ?_, ?_, ?_, ?_⟩
  · show (if s = s then some 0 else none) = some 0
    rw [if_pos rfl]
  · intro e he
    have h1 : e = (0, s) := List.mem_singleton.mp he
    rw [h1]
    exact hs
  · intro e he
    have h1 : e = (0, s) := List.mem_singleton.mp he
    subst h1
    refine ⟨0, ?_, Nat.le_refl _⟩
    show (if s = s then some 0 else none) = some 0
    rw [if_pos rfl]
  · intro v k _ hk
    have hk' : (if v = s then some 0 else none) = some k := hk
    by_cases hv : v = s
    · rw [if_pos hv] at hk'
      injection hk' with h2
      subst hv
      rw [← h2]
      exact List.mem_singleton.mpr rfl
    · rw [if_neg hv] at hk'
      cases hk'
  · intro v k hk
    have hk' : (if v = s then some 0 else none) = some k := hk
    by_cases hv : v = s
    · rw [if_pos hv] at hk'
      injection hk' with h2
      subst hv
      rw [← h2]
      exact ⟨[v], PathFrom.single v, rfl⟩
    · rw [if_neg hv] at hk'
      cases hk'
  · intro v hv
    cases hv
  · intro v hv
    cases hv
  · intro v hv
    cases hv
  · intro v u hvu
    cases hvu
  · intro v k hk _
    have hk' : (if v = s then some 0 else none) = some k := hk
    by_cases hv : v = s
    · exact hv
    · rw [if_neg hv] at hk'
      cases hk'

theorem find_path_full_main (adj : Adj) (s t : IRI) (hs : s ∈ adjModules adj)
    (ht : t ∈ adjModules adj) (hne : s ≠ t) :
    find_path_full adj s t =
      match dijLoop adj (adjModules adj) t (dijFuel adj) (initState s) with
      | Except.error e => Except.error e
      | Except.ok sF =>
        match sF.dist t with
        | none => Except.ok PathOutcome.noPath
        | some e =>
          match reconstructPath sF.prev (e + 1) t with
          | none => Except.error DijErr.fuelOut
          | some p => Except.ok (PathOutcome.found p) := by
  simp [find_path_full, hs, ht, hne]

/-- C1 (amended): on a closed adjacency model (every connection slot points
back into the model's module set), for every pair of distinct member modules,
`find_path` raises no exception; when it returns a sequence, that sequence is
a valid directed path of the model from the source to the target whose length
is minimal among all such paths (so its length minus one is the true
shortest-hop distance); and it returns the no-path `None` exactly when the
target is unreachable from the source. -/
theorem find_path_shortest_correct (adj : Adj) (s t : IRI)
    (hclosed : closedAdjB adj = true) (hnd : (adjModules adj).Nodup)
    (hs : s ∈ adjModules adj) (ht : t ∈ adjModules adj) (hne : s ≠ t) :
    (∀ p, find_path adj s t = Except.ok (some p) →
      PathFrom adj s t p ∧ p.head? = some s ∧ p.getLast? = some t ∧
      (∀ q, PathFrom adj s t q → p.length ≤ q.length)) ∧
    (find_path adj s t = Except.ok none ↔ ¬ Reachable adj s t) ∧
    (∃ r, find_path adj s t = Except.ok r) := by
  obtain ⟨sF, hloop, hsound, hprevE, hprevN, hdisj⟩ :=
    dijLoop_ok adj s t hclosed hnd (dijFuel adj) (initState s)
      (initState_inv adj s hs)
      (by intro z hz; cases hz)
      (by intro h; cases h)
      (measure_init_lt adj s hnd)
  rcases hdisj with ⟨hdt, hunreach⟩ | ⟨k, hdt, hmin⟩
  · have hfull : find_path_full adj s t = Except.ok PathOutcome.noPath := by
      rw [find_path_full_main adj s t hs ht hne]
      simp only [hloop, hdt]
    have hval : find_path adj s t = Except.ok none := by
      rw [find_path, hfull]
      rfl
    refine ⟨?_, ?_, ⟨none, hval⟩⟩
    · intro p hp
      rw [hval] at hp
      injection hp with h1
      cases h1
    · exact ⟨fun _ => hunreach, fun _ => hval⟩
  · obtain ⟨p, hrec, hpath, hlen⟩ :=
      reconstruct_ok adj s sF hprevE hprevN k t hdt (k + 1) (Nat.le_refl _)
    have hlen2 : p.length = k + 1 := Nat.le_antisymm hlen (hmin p hpath)
    have hfull : find_path_full adj s t = Except.ok (PathOutcome.found p) := by
      rw [find_path_full_main adj s t hs ht hne]
      simp only [hloop, hdt, hrec]
    have hval : find_path adj s t = Except.ok (some p) := by
      rw [find_path, hfull]
      rfl
    refine ⟨?_, ?_, ⟨some p, hval⟩⟩
    · intro p' hp'
      rw [hval] at hp'
      injection hp' with h1
      injection h1 with h2
      subst h2
      refine ⟨hpath, hpath.head_eq, hpath.last_eq, ?_⟩
      intro q hq
      rw [hlen2]
      exact hmin q hq
    · constructor
      · intro hnone
        rw [hval] at hnone
        injection hnone with h1
        cases h1
      · intro hnr
        exact absurd ⟨p, hpath⟩ hnr

theorem find_path_shortest_correct_witness :
    PathFrom [("A", [some "B", none, none, none]), ("B", [none, none, none, none])]
      "A" "B" ["A", "B"] ∧
    ∀ q, PathFrom [("A", [some "B", none, none, none]), ("B", [none, none, none, none])]
      "A" "B" q → (["A", "B"] : List IRI).length ≤ q.length := by
  have h := (find_path_shortest_correct
    [("A", [some "B", none, none, none]), ("B", [none, none, none, none])] "A" "B"
    (by decide) (by decide) (by decide) (by decide) (by decide)).1 ["A", "B"] rfl
  exact ⟨h.1, h.2.2.2⟩

/-- C1 (counterexample): on a model with a dangling connection (module A's
north slot points at X, which is not a module of the model), the target C is
reachable from A by a direct edge, yet `find_path` does not return any
sequence: it raises the `KeyError` of the distances-dict lookup while
relaxing the dangling neighbour.  The claim as stated is therefore false
without a closedness hypothesis. -/
theorem find_path_dangling_edge_counterexample :
    PathFrom [("A", [some "X", some "C", none, none]), ("C", [none, none, none, none])]
      "A" "C" ["A", "C"] ∧
    find_path [("A", [some "X", some "C", none, none]), ("C", [none, none, none, none])]
      "A" "C" = Except.error DijErr.keyError := by
  constructor
  · exact PathFrom.cons "A" "C" "C" ["C"] (by decide) (PathFrom.single "C")
  · rfl

end FlexConveyor
